import Mathlib

/-!
Shallow embedding of the page-replacement core of the PagingSimulatorGUI
repository (src/secondapp.py, with src/app.py's duplicated FIFO/LRU and its
run_both comparison).  Pages are modelled as `Int` (Python ints), Python
dicts as association lists, and each simulator as a step function threaded
through the reference string by a common driver `runGo` that mirrors the
`for` loop shared by all four Python functions.
-/

namespace Paging

/-- The status string of a step record: "HIT" or "FAULT". -/
inductive Status where
  | HIT
  | FAULT
deriving DecidableEq, Repr

/-- One step record `(page, frames.copy(), status)` as appended to `steps`. -/
structure StepRec where
  page : Int
  frames : List Int
  status : Status
deriving DecidableEq, Repr

/-- The formal content of one `log.append(...)` line: a hit, a load into an
empty frame, or a replacement naming the evicted victim. -/
inductive LogEntry where
  | hit (page : Int)
  | load (page : Int)
  | replace (page victim : Int)
deriving DecidableEq, Repr

/-- A Python dict from page id to int, modelled as an association list whose
first matching key wins. -/
abbrev Dict : Type := List (Int × Int)

/-- `d[k]` lookup: first entry with key `k`, if any. -/
def dlookup (d : Dict) (k : Int) : Option Int :=
  match d with
  | [] => none
  | (a, v) :: rest => if a = k then some v else dlookup rest k

/-- `del d[k]`: remove every entry with key `k` (a dict has at most one). -/
def ddel (d : Dict) (k : Int) : Dict :=
  match d with
  | [] => []
  | (a, v) :: rest => if a = k then ddel rest k else (a, v) :: ddel rest k

/-- `d[k] = v`: set key `k` to `v`, replacing any previous entry. -/
def dset (d : Dict) (k v : Int) : Dict :=
  (k, v) :: ddel d k

/-- Python's `min(xs, key=key)` on the nonempty list `b :: l`: scan left to
right, keeping the current best and replacing it only on a strictly smaller
key, so the first minimum wins. -/
def pyMinFold {β : Type} {α : Type} [LinearOrder α] (key : β → α) (b : β) :
    List β → β
  | [] => b
  | a :: rest => if key a < key b then pyMinFold key a rest else pyMinFold key b rest

/-- Python's `min(l, key=key)`; `none` on the empty list (Python raises). -/
def pyMinBy {β : Type} {α : Type} [LinearOrder α] (key : β → α) :
    List β → Option β
  | [] => none
  | x :: xs => some (pyMinFold key x xs)

/-- `idx = frames.index(old); frames[idx] = new`: replace the first
occurrence of `old` by `new`. -/
def replaceFirst (old new : Int) : List Int → List Int
  | [] => []
  | x :: xs => if x = old then new :: xs else x :: replaceFirst old new xs

/-- `future.index(f) if f in future else float('inf')`: the next-occurrence
distance of `f` in `future`, with `⊤` when `f` never occurs again. -/
def nu (x : Int) : List Int → WithTop Nat
  | [] => ⊤
  | y :: ys => if y = x then 0 else 1 + nu x ys

/-- The OPTIMAL victim scan of `optimal_page_replacement`: iterate the frames
in order, keeping `replace_page` and `farthest_index` (initially `None` and
`-1`, modelled as `⊥`), updating on a strictly larger next use. -/
def optSelect (future : List Int) (far : WithBot (WithTop Nat))
    (best : Option Int) : List Int → Option Int
  | [] => best
  | f :: fs =>
    let nuf : WithBot (WithTop Nat) := (nu f future : WithTop Nat)
    if far < nuf then optSelect future nuf (some f) fs
    else optSelect future far best fs

/-- The page `optimal_page_replacement` replaces on a full fault. -/
def optVictim (future frames : List Int) : Option Int :=
  optSelect future ⊥ none frames

/-- The outcome of one loop iteration of a simulator: the updated local
state, the appended step record and log line, and whether it was a hit. -/
def StepOut (σ : Type) : Type := σ × StepRec × LogEntry × Bool

/-- A simulator loop body: access index `i`, page, the not-yet-processed
suffix of the reference string (`pages[i+1:]`), and the local state. -/
def StepFn (σ : Type) : Type := Nat → Int → List Int → σ → StepOut σ

/-- The value returned by one simulator run: the `steps`, `faults`, `hits`
and `log` locals of the Python function, plus its final loop state. -/
structure Run (σ : Type) where
  steps : List StepRec
  faults : Nat
  hits : Nat
  log : List LogEntry
  final : σ
deriving DecidableEq, Repr

/-- The `for i, page in enumerate(pages)` loop shared by all four
simulators, threading the local state through `step`. -/
def runGo {σ : Type} (step : StepFn σ) : List Int → σ → Nat → Run σ
  | [], s, _ => ⟨[], 0, 0, [], s⟩
  | p :: rest, s, i =>
    let o := step i p rest s
    let r := runGo step rest o.1 (i + 1)
    ⟨o.2.1 :: r.steps,
     (if o.2.2.2 then 0 else 1) + r.faults,
     (if o.2.2.2 then 1 else 0) + r.hits,
     o.2.2.1 :: r.log,
     r.final⟩

/-! ## FIFO (`fifo_page_replacement`) -/

/-- The locals of `fifo_page_replacement`: the frame list and the rotating
`queue_index`. -/
structure FifoSt where
  frames : List Int
  queueIndex : Nat
deriving DecidableEq, Repr

/-- One iteration of the FIFO loop.  On a full fault the page at
`queue_index` is overwritten and the cursor advances mod `frame_count`. -/
def fifoStep (frame_count : Nat) : StepFn FifoSt := fun _ page _ s =>
  if page ∈ s.frames then
    (s, ⟨page, s.frames, .HIT⟩, .hit page, true)
  else if s.frames.length < frame_count then
    let frames' := s.frames ++ [page]
    (⟨frames', s.queueIndex⟩, ⟨page, frames', .FAULT⟩, .load page, false)
  else
    let replaced := s.frames.getD s.queueIndex 0
    let frames' := s.frames.set s.queueIndex page
    (⟨frames', (s.queueIndex + 1) % frame_count⟩,
     ⟨page, frames', .FAULT⟩, .replace page replaced, false)

/-- `fifo_page_replacement(pages, frame_count)` from src/secondapp.py
(src/app.py duplicates the same logic without the log). -/
def fifo_page_replacement (pages : List Int) (frame_count : Nat) : Run FifoSt :=
  runGo (fifoStep frame_count) pages ⟨[], 0⟩ 0

/-! ## LRU (`lru_page_replacement`) -/

/-- The locals of `lru_page_replacement`: the frame list and the `recent`
dict from page to its most recent access index. -/
structure LruSt where
  frames : List Int
  recent : Dict
deriving DecidableEq, Repr

/-- One iteration of the LRU loop.  On a full fault the victim is
`min(frames, key=lambda p: recent.get(p, -1))`; in every branch
`recent[page] = i` runs after the if/else. -/
def lruStep (frame_count : Nat) : StepFn LruSt := fun i page _ s =>
  if page ∈ s.frames then
    (⟨s.frames, dset s.recent page i⟩, ⟨page, s.frames, .HIT⟩, .hit page, true)
  else if s.frames.length < frame_count then
    let frames' := s.frames ++ [page]
    (⟨frames', dset s.recent page i⟩, ⟨page, frames', .FAULT⟩, .load page, false)
  else
    -- the source raises IndexError when frames is empty (frame_count ≤ 0);
    -- that branch is unreachable for frame_count > 0, `.getD 0` is a sentinel
    let lru_page := (pyMinBy (fun p => (dlookup s.recent p).getD (-1)) s.frames).getD 0
    let frames' := replaceFirst lru_page page s.frames
    (⟨frames', dset s.recent page i⟩, ⟨page, frames', .FAULT⟩,
     .replace page lru_page, false)

/-- `lru_page_replacement(pages, frame_count)` from src/secondapp.py. -/
def lru_page_replacement (pages : List Int) (frame_count : Nat) : Run LruSt :=
  runGo (lruStep frame_count) pages ⟨[], []⟩ 0

/-! ## OPTIMAL (`optimal_page_replacement`) -/

/-- One iteration of the OPTIMAL loop; `future` is `pages[i+1:]`, i.e. the
`rest` suffix supplied by `runGo`. -/
def optStep (frame_count : Nat) : StepFn (List Int) := fun _ page future frames =>
  if page ∈ frames then
    (frames, ⟨page, frames, .HIT⟩, .hit page, true)
  else if frames.length < frame_count then
    let frames' := frames ++ [page]
    (frames', ⟨page, frames', .FAULT⟩, .load page, false)
  else
    -- `replace_page` is `None` only when frames is empty (frame_count ≤ 0),
    -- where the source raises; `.getD 0` is an unreachable sentinel
    let replace_page := (optVictim future frames).getD 0
    let frames' := replaceFirst replace_page page frames
    (frames', ⟨page, frames', .FAULT⟩, .replace page replace_page, false)

/-- `optimal_page_replacement(pages, frame_count)` from src/secondapp.py. -/
def optimal_page_replacement (pages : List Int) (frame_count : Nat) :
    Run (List Int) :=
  runGo (optStep frame_count) pages [] 0

/-! ## LFU (`lfu_page_replacement`) -/

/-- The locals of `lfu_page_replacement`: the frame list and the `freq` and
`time` dicts. -/
structure LfuSt where
  frames : List Int
  freq : Dict
  time : Dict
deriving DecidableEq, Repr

/-- The composite ordering key `(freq[p], time[p])` compared as a Python
tuple, i.e. lexicographically.  The source indexes the dicts directly and
would raise KeyError on a missing page; the `.getD 0` defaults are never
consulted on resident pages (proved below). -/
def lfuKey (freq time : Dict) (p : Int) : Int ×ₗ Int :=
  toLex ((dlookup freq p).getD 0, (dlookup time p).getD 0)

/-- One iteration of the LFU loop. -/
def lfuStep (frame_count : Nat) : StepFn LfuSt := fun i page _ s =>
  if page ∈ s.frames then
    (⟨s.frames, dset s.freq page ((dlookup s.freq page).getD 0 + 1),
      dset s.time page i⟩,
     ⟨page, s.frames, .HIT⟩, .hit page, true)
  else if s.frames.length < frame_count then
    let frames' := s.frames ++ [page]
    (⟨frames', dset s.freq page 1, dset s.time page i⟩,
     ⟨page, frames', .FAULT⟩, .load page, false)
  else
    -- unreachable `.getD 0` sentinel as in `lruStep`
    let victim := (pyMinBy (lfuKey s.freq s.time) s.frames).getD 0
    let frames' := replaceFirst victim page s.frames
    (⟨frames', dset (ddel s.freq victim) page 1, dset (ddel s.time victim) page i⟩,
     ⟨page, frames', .FAULT⟩, .replace page victim, false)

/-- `lfu_page_replacement(pages, frame_count)` from src/secondapp.py. -/
def lfu_page_replacement (pages : List Int) (frame_count : Nat) : Run LfuSt :=
  runGo (lfuStep frame_count) pages ⟨[], [], []⟩ 0

/-! ## Input validation and GUI-level drivers -/

/-- `parse_input` from src/secondapp.py (src/app.py is identical), taken
after string tokenisation: a non-positive frame count or an empty page list
raises ValueError, and the bare `except` turns every failure into the same
single generic error dialog, modelled as `none`. -/
def parse_input (frame_count : Int) (pages : List Int) :
    Option (List Int × Int) :=
  if frame_count ≤ 0 then none
  else if pages.length = 0 then none
  else some (pages, frame_count)

/-- `run_fifo`: returns early with no step records when `parse_input`
fails. -/
def run_fifo (frame_count : Int) (pages : List Int) : Option (Run FifoSt) :=
  match parse_input frame_count pages with
  | none => none
  | some (p, fc) => some (fifo_page_replacement p fc.toNat)

/-- `run_lru`, analogous to `run_fifo`. -/
def run_lru (frame_count : Int) (pages : List Int) : Option (Run LruSt) :=
  match parse_input frame_count pages with
  | none => none
  | some (p, fc) => some (lru_page_replacement p fc.toNat)

/-- `run_optimal`, analogous to `run_fifo`. -/
def run_optimal (frame_count : Int) (pages : List Int) :
    Option (Run (List Int)) :=
  match parse_input frame_count pages with
  | none => none
  | some (p, fc) => some (optimal_page_replacement p fc.toNat)

/-- `run_lfu`, analogous to `run_fifo`. -/
def run_lfu (frame_count : Int) (pages : List Int) : Option (Run LfuSt) :=
  match parse_input frame_count pages with
  | none => none
  | some (p, fc) => some (lfu_page_replacement p fc.toNat)

/-- The four algorithm labels of `compare_all`'s candidate list. -/
inductive AlgName where
  | FIFO
  | LRU
  | OPTIMAL
  | LFU
deriving DecidableEq, Repr

/-- The fault count each label stands for in `compare_all`. -/
def algFaults (pages : List Int) (frame_count : Nat) : AlgName → Nat
  | .FIFO => (fifo_page_replacement pages frame_count).faults
  | .LRU => (lru_page_replacement pages frame_count).faults
  | .OPTIMAL => (optimal_page_replacement pages frame_count).faults
  | .LFU => (lfu_page_replacement pages frame_count).faults

/-- The `best` computation of `compare_all` in src/secondapp.py:
`min([("FIFO", fifo_faults), ...], key=lambda x: x[1])[0]`, a single label. -/
def compare_all_best (pages : List Int) (frame_count : Nat) : AlgName :=
  (pyMinFold (fun x => x.2)
    (AlgName.FIFO, (fifo_page_replacement pages frame_count).faults)
    [(AlgName.LRU, (lru_page_replacement pages frame_count).faults),
     (AlgName.OPTIMAL, (optimal_page_replacement pages frame_count).faults),
     (AlgName.LFU, (lfu_page_replacement pages frame_count).faults)]).1

/-- The three possible `better` verdicts of `run_both` in src/app.py. -/
inductive BothResult where
  | FIFO
  | LRU
  | BothEqual
deriving DecidableEq, Repr

/-- The `better` computation of `run_both` in src/app.py:
`"FIFO" if fifo_faults < lru_faults else "LRU" if lru_faults < fifo_faults
else "Both Equal"` (app.py's FIFO and LRU compute the same fault counts as
the secondapp.py versions modelled here). -/
def run_both_better (pages : List Int) (frame_count : Nat) : BothResult :=
  if (fifo_page_replacement pages frame_count).faults
      < (lru_page_replacement pages frame_count).faults then .FIFO
  else if (lru_page_replacement pages frame_count).faults
      < (fifo_page_replacement pages frame_count).faults then .LRU
  else .BothEqual

/-- The victims named by the `replace` log lines of a run, in order. -/
def logVictims (log : List LogEntry) : List Int :=
  log.filterMap fun e =>
    match e with
    | .replace _ v => some v
    | _ => none

/-! ## Dict lemmas -/

theorem dlookup_dset_self (d : Dict) (k v : Int) :
    dlookup (dset d k v) k = some v := by
  simp [dset, dlookup]

theorem dlookup_ddel_ne (k q : Int) (h : q ≠ k) :
    ∀ d : Dict, dlookup (ddel d k) q = dlookup d q := by
  intro d
  induction d with
  | nil => rfl
  | cons e rest ih =>
    obtain ⟨a, v⟩ := e
    by_cases hak : a = k
    · subst hak
      simp [ddel, dlookup, Ne.symm h, ih]
    · by_cases haq : a = q
      · subst haq
        simp [ddel, dlookup, hak]
      · simp [ddel, dlookup, hak, haq, ih]

theorem dlookup_dset_ne (d : Dict) (k v q : Int) (h : q ≠ k) :
    dlookup (dset d k v) q = dlookup d q := by
  simp [dset, dlookup, Ne.symm h, dlookup_ddel_ne k q h d]

/-! ## replaceFirst and List.set lemmas -/

theorem length_replaceFirst (old new : Int) :
    ∀ l : List Int, (replaceFirst old new l).length = l.length := by
  intro l
  induction l with
  | nil => rfl
  | cons x xs ih =>
    by_cases hx : x = old <;> simp [replaceFirst, hx, ih]

theorem mem_of_mem_replaceFirst {old new q : Int} :
    ∀ {l : List Int}, q ∈ replaceFirst old new l → q = new ∨ q ∈ l := by
  intro l
  induction l with
  | nil => simp [replaceFirst]
  | cons x xs ih =>
    by_cases hx : x = old
    · simp only [replaceFirst, if_pos hx, List.mem_cons]
      rintro (h | h)
      · exact Or.inl h
      · exact Or.inr (Or.inr h)
    · simp only [replaceFirst, if_neg hx, List.mem_cons]
      rintro (h | h)
      · exact Or.inr (Or.inl h)
      · rcases ih h with h' | h'
        · exact Or.inl h'
        · exact Or.inr (Or.inr h')

theorem nodup_replaceFirst {old new : Int} :
    ∀ {l : List Int}, l.Nodup → new ∉ l → (replaceFirst old new l).Nodup := by
  intro l
  induction l with
  | nil => intro _ _; simp [replaceFirst]
  | cons x xs ih =>
    intro hnd hnew
    rw [List.nodup_cons] at hnd
    have hnewx : new ≠ x := fun h => hnew (h ▸ List.mem_cons_self x xs)
    have hnewxs : new ∉ xs := fun h => hnew (List.mem_cons_of_mem _ h)
    by_cases hx : x = old
    · rw [replaceFirst, if_pos hx, List.nodup_cons]
      exact ⟨hnewxs, hnd.2⟩
    · rw [replaceFirst, if_neg hx, List.nodup_cons]
      refine ⟨fun hmem => ?_, ih hnd.2 hnewxs⟩
      rcases mem_of_mem_replaceFirst hmem with h | h
      · exact hnewx h.symm
      · exact hnd.1 h

theorem mem_replaceFirst_of_ne {old new q : Int} :
    ∀ {l : List Int}, l.Nodup → q ∈ replaceFirst old new l →
      q = new ∨ (q ∈ l ∧ q ≠ old) := by
  intro l
  induction l with
  | nil => intro _ h; simp [replaceFirst] at h
  | cons x xs ih =>
    intro hnd hmem
    rw [List.nodup_cons] at hnd
    by_cases hx : x = old
    · rw [replaceFirst, if_pos hx] at hmem
      rcases List.mem_cons.1 hmem with h | h
      · exact Or.inl h
      · refine Or.inr ⟨List.mem_cons_of_mem _ h, fun hq => ?_⟩
        exact hnd.1 (by rw [← hx] at hq; exact hq ▸ h)
    · rw [replaceFirst, if_neg hx] at hmem
      rcases List.mem_cons.1 hmem with h | h
      · exact Or.inr ⟨h ▸ List.mem_cons_self x xs, h ▸ hx⟩
      · rcases ih hnd.2 h with h' | h'
        · exact Or.inl h'
        · exact Or.inr ⟨List.mem_cons_of_mem _ h'.1, h'.2⟩

theorem toFinset_replaceFirst {old new : Int} :
    ∀ {l : List Int}, l.Nodup → old ∈ l → new ∉ l →
      (replaceFirst old new l).toFinset = insert new (l.toFinset.erase old) := by
  intro l
  induction l with
  | nil => intro _ h; exact absurd h (List.not_mem_nil old)
  | cons x xs ih =>
    intro hnd hold hnew
    rw [List.nodup_cons] at hnd
    have hnewxs : new ∉ xs := fun h => hnew (List.mem_cons_of_mem _ h)
    by_cases hx : x = old
    · subst hx
      rw [replaceFirst, if_pos rfl]
      have hxs : x ∉ xs.toFinset := fun h => hnd.1 (List.mem_toFinset.1 h)
      simp [Finset.erase_insert hxs]
    · have hold' : old ∈ xs := by
        rcases List.mem_cons.1 hold with h | h
        · exact absurd h.symm hx
        · exact h
      rw [replaceFirst, if_neg hx]
      have hxold : x ≠ old := hx
      simp only [List.toFinset_cons, ih hnd.2 hold' hnewxs,
        Finset.erase_insert_of_ne hxold]
      rw [Finset.Insert.comm]

theorem getD_mem_of_lt {l : List Int} {n : Nat} (h : n < l.length) (d : Int) :
    l.getD n d ∈ l := by
  induction l generalizing n with
  | nil => simp at h
  | cons x xs ih =>
    cases n with
    | zero => simp [List.getD]
    | succ m =>
      have hm : m < xs.length := by simpa using h
      simp only [List.getD_cons_succ]
      exact List.mem_cons_of_mem _ (ih hm)

theorem toFinset_set {p : Int} :
    ∀ {l : List Int} {n : Nat}, n < l.length → l.Nodup → p ∉ l →
      (l.set n p).toFinset = insert p (l.toFinset.erase (l.getD n 0)) := by
  intro l
  induction l with
  | nil => intro n h; simp at h
  | cons x xs ih =>
    intro n hn hnd hp
    rw [List.nodup_cons] at hnd
    have hpxs : p ∉ xs := fun h => hp (List.mem_cons_of_mem _ h)
    cases n with
    | zero =>
      have hxs : x ∉ xs.toFinset := fun h => hnd.1 (List.mem_toFinset.1 h)
      simp [List.set, List.getD, Finset.erase_insert hxs]
    | succ m =>
      have hn' : m < xs.length := by simpa using hn
      have hv : xs.getD m 0 ∈ xs := getD_mem_of_lt hn' 0
      have hxv : x ≠ xs.getD m 0 := fun h => hnd.1 (h ▸ hv)
      simp only [List.set, List.toFinset_cons, ih hn' hnd.2 hpxs, List.getD_cons_succ]
      rw [Finset.erase_insert_of_ne hxv, Finset.Insert.comm]

/-! ## pyMin lemmas -/

theorem pyMinFold_spec {β α : Type} [LinearOrder α] (key : β → α) :
    ∀ (l : List β) (b : β),
      (pyMinFold key b l = b ∨ pyMinFold key b l ∈ l) ∧
      key (pyMinFold key b l) ≤ key b ∧
      ∀ g ∈ l, key (pyMinFold key b l) ≤ key g := by
  intro l
  induction l with
  | nil => intro b; exact ⟨Or.inl rfl, le_refl _, by simp⟩
  | cons a rest ih =>
    intro b
    by_cases hab : key a < key b
    · rw [pyMinFold, if_pos hab]
      obtain ⟨hmem, hle, hall⟩ := ih a
      refine ⟨?_, le_of_lt (lt_of_le_of_lt hle hab), ?_⟩
      · rcases hmem with h | h
        · refine Or.inr ?_
          rw [h]
          exact List.mem_cons_self a rest
        · exact Or.inr (List.mem_cons_of_mem _ h)
      · intro g hg
        rcases List.mem_cons.1 hg with h | h
        · exact h ▸ hle
        · exact hall g h
    · rw [pyMinFold, if_neg hab]
      obtain ⟨hmem, hle, hall⟩ := ih b
      refine ⟨?_, hle, ?_⟩
      · rcases hmem with h | h
        · exact Or.inl h
        · exact Or.inr (List.mem_cons_of_mem _ h)
      · intro g hg
        rcases List.mem_cons.1 hg with h | h
        · exact h ▸ le_trans hle (not_lt.1 hab)
        · exact hall g h

theorem pyMinFold_congr {β α : Type} [LinearOrder α] (k1 k2 : β → α) :
    ∀ (l : List β) (b : β), k1 b = k2 b → (∀ g ∈ l, k1 g = k2 g) →
      pyMinFold k1 b l = pyMinFold k2 b l := by
  intro l
  induction l with
  | nil => intro b _ _; rfl
  | cons a rest ih =>
    intro b hb hl
    have ha : k1 a = k2 a := hl a (List.mem_cons_self a rest)
    have hrest : ∀ g ∈ rest, k1 g = k2 g :=
      fun g hg => hl g (List.mem_cons_of_mem _ hg)
    rw [pyMinFold, pyMinFold, ha, hb]
    by_cases h : k2 a < k2 b
    · rw [if_pos h, if_pos h, ih a ha hrest]
    · rw [if_neg h, if_neg h, ih b hb hrest]

theorem pyMinBy_spec {β α : Type} [LinearOrder α] (key : β → α) (l : List β)
    (h : l ≠ []) :
    ∃ v, pyMinBy key l = some v ∧ v ∈ l ∧ ∀ g ∈ l, key v ≤ key g := by
  match l with
  | [] => exact absurd rfl h
  | x :: xs =>
    obtain ⟨hmem, hle, hall⟩ := pyMinFold_spec key xs x
    refine ⟨pyMinFold key x xs, rfl, ?_, ?_⟩
    · rcases hmem with h' | h'
      · rw [h']
        exact List.mem_cons_self x xs
      · exact List.mem_cons_of_mem _ h'
    · intro g hg
      rcases List.mem_cons.1 hg with h' | h'
      · exact h' ▸ hle
      · exact hall g h'

/-! ## next-use (`nu`) lemmas -/

theorem nu_cons_self (x : Int) (l : List Int) : nu x (x :: l) = 0 := by
  simp [nu]

theorem nu_cons_ne {p x : Int} (h : p ≠ x) (l : List Int) :
    nu x (p :: l) = 1 + nu x l := by
  simp [nu, h]

theorem one_add_not_le_zero (a : WithTop Nat) : ¬ 1 + a ≤ 0 := by
  induction a using WithTop.recTopCoe with
  | top =>
    intro hc
    rw [add_top] at hc
    exact absurd (top_le_iff.1 hc) (by simp)
  | coe n =>
    intro hc
    rw [← WithTop.coe_one, ← WithTop.coe_add, ← WithTop.coe_zero] at hc
    exact absurd (WithTop.coe_le_coe.1 hc) (by omega)

theorem nu_le_strip {p x y : Int} {l : List Int} (hx : p ≠ x) (hy : p ≠ y)
    (h : nu x (p :: l) ≤ nu y (p :: l)) : nu x l ≤ nu y l := by
  rw [nu_cons_ne hx, nu_cons_ne hy] at h
  exact (WithTop.add_le_add_iff_left (by simp : (1 : WithTop Nat) ≠ ⊤)).1 h

theorem nu_head_eq {x y : Int} {l : List Int}
    (h : nu x (y :: l) ≤ nu y (y :: l)) : x = y := by
  by_contra hxy
  rw [nu_cons_self, nu_cons_ne (Ne.symm hxy)] at h
  exact one_add_not_le_zero (nu x l) h

/-! ## optSelect / optVictim lemmas -/

theorem optSelect_spec (future : List Int) :
    ∀ (fs : List Int) (far : WithBot (WithTop Nat)) (best : Option Int),
      (optSelect future far best fs = best ∧
        ∀ g ∈ fs, ((nu g future : WithTop Nat) : WithBot (WithTop Nat)) ≤ far) ∨
      (∃ v l1 l2, optSelect future far best fs = some v ∧ fs = l1 ++ v :: l2 ∧
        far < ((nu v future : WithTop Nat) : WithBot (WithTop Nat)) ∧
        (∀ g ∈ fs, nu g future ≤ nu v future) ∧
        (∀ g ∈ l1,
          ((nu g future : WithTop Nat) : WithBot (WithTop Nat)) ≤ far ∨
          nu g future < nu v future)) := by
  intro fs
  induction fs with
  | nil => intro far best; exact Or.inl ⟨rfl, by simp⟩
  | cons f fs' ih =>
    intro far best
    by_cases hf : far < ((nu f future : WithTop Nat) : WithBot (WithTop Nat))
    · rw [optSelect]
      simp only [if_pos hf]
      rcases ih ((nu f future : WithTop Nat) : WithBot (WithTop Nat)) (some f) with
        ⟨heq, hall⟩ | ⟨v, l1, l2, heq, hsplit, hfar, hall, hfirst⟩
      · refine Or.inr ⟨f, [], fs', heq, by simp, hf, ?_, by simp⟩
        intro g hg
        rcases List.mem_cons.1 hg with h | h
        · exact h ▸ le_refl _
        · exact WithBot.coe_le_coe.1 (hall g h)
      · refine Or.inr ⟨v, f :: l1, l2, heq, by rw [hsplit]; rfl, ?_, ?_, ?_⟩
        · exact lt_trans hf hfar
        · intro g hg
          rcases List.mem_cons.1 hg with h | h
          · exact h ▸ le_of_lt (WithBot.coe_lt_coe.1 hfar)
          · exact hall g (hsplit ▸ h)
        · intro g hg
          rcases List.mem_cons.1 hg with h | h
          · exact Or.inr (h ▸ WithBot.coe_lt_coe.1 hfar)
          · rcases hfirst g h with h' | h'
            · exact Or.inr (lt_of_le_of_lt (WithBot.coe_le_coe.1 h')
                (WithBot.coe_lt_coe.1 hfar))
            · exact Or.inr h'
    · rw [optSelect]
      simp only [if_neg hf]
      rcases ih far best with
        ⟨heq, hall⟩ | ⟨v, l1, l2, heq, hsplit, hfar, hall, hfirst⟩
      · refine Or.inl ⟨heq, ?_⟩
        intro g hg
        rcases List.mem_cons.1 hg with h | h
        · exact h ▸ not_lt.1 hf
        · exact hall g h
      · refine Or.inr ⟨v, f :: l1, l2, heq, by rw [hsplit]; rfl, hfar, ?_, ?_⟩
        · intro g hg
          rcases List.mem_cons.1 hg with h | h
          · refine h ▸ le_of_lt (WithBot.coe_lt_coe.1 ?_)
            exact lt_of_le_of_lt (not_lt.1 hf) hfar
          · exact hall g (hsplit ▸ h)
        · intro g hg
          rcases List.mem_cons.1 hg with h | h
          · exact Or.inl (h ▸ not_lt.1 hf)
          · exact hfirst g h

theorem optVictim_first (future frames : List Int) (h : frames ≠ []) :
    ∃ v l1 l2, optVictim future frames = some v ∧ frames = l1 ++ v :: l2 ∧
      (∀ g ∈ frames, nu g future ≤ nu v future) ∧
      ∀ g ∈ l1, nu g future < nu v future := by
  rcases optSelect_spec future frames ⊥ none with
    ⟨heq, hall⟩ | ⟨v, l1, l2, heq, hsplit, _, hall, hfirst⟩
  · match frames, h with
    | f :: fs, _ =>
      exact absurd (hall f (List.mem_cons_self f fs)) (WithBot.not_coe_le_bot _)
  · refine ⟨v, l1, l2, heq, hsplit, hall, ?_⟩
    intro g hg
    rcases hfirst g hg with h' | h'
    · exact absurd h' (WithBot.not_coe_le_bot _)
    · exact h'

theorem optVictim_spec (future frames : List Int) (h : frames ≠ []) :
    ∃ v, optVictim future frames = some v ∧ v ∈ frames ∧
      ∀ g ∈ frames, nu g future ≤ nu v future := by
  obtain ⟨v, l1, l2, heq, hsplit, hall, _⟩ := optVictim_first future frames h
  exact ⟨v, heq, by rw [hsplit]; simp, hall⟩

/-! ## Generic facts about the simulation loop -/

theorem runGo_steps_length {σ : Type} (step : StepFn σ) :
    ∀ (l : List Int) (s : σ) (i : Nat),
      (runGo step l s i).steps.length = l.length := by
  intro l
  induction l with
  | nil => intro s i; rfl
  | cons p rest ih => intro s i; simp [runGo, ih]

theorem runGo_hits_faults {σ : Type} (step : StepFn σ) :
    ∀ (l : List Int) (s : σ) (i : Nat),
      (runGo step l s i).hits + (runGo step l s i).faults = l.length := by
  intro l
  induction l with
  | nil => intro s i; rfl
  | cons p rest ih =>
    intro s i
    have h := ih (step i p rest s).1 (i + 1)
    simp only [runGo, List.length_cons]
    cases hb : (step i p rest s).2.2.2
    · rw [if_neg (by simp), if_neg (by simp)]
      omega
    · rw [if_pos rfl, if_pos rfl]
      omega

theorem runGo_steps_pages {σ : Type} (step : StepFn σ)
    (hpage : ∀ i p rest s, ((step i p rest s).2.1).page = p) :
    ∀ (l : List Int) (s : σ) (i : Nat),
      (runGo step l s i).steps.map StepRec.page = l := by
  intro l
  induction l with
  | nil => intro s i; rfl
  | cons p rest ih => intro s i; simp [runGo, hpage, ih]

theorem runGo_final_inv {σ : Type} (step : StepFn σ) (Inv : σ → Prop)
    (hstep : ∀ i p rest s, Inv s → Inv (step i p rest s).1) :
    ∀ (l : List Int) (s : σ) (i : Nat), Inv s →
      Inv (runGo step l s i).final := by
  intro l
  induction l with
  | nil => intro s i h; exact h
  | cons p rest ih =>
    intro s i h
    exact ih (step i p rest s).1 (i + 1) (hstep i p rest s h)

theorem runGo_steps_inv {σ : Type} (step : StepFn σ) (Inv : σ → Prop)
    (P : List Int → Prop) (fr : σ → List Int)
    (hstep : ∀ i p rest s, Inv s → Inv (step i p rest s).1)
    (hsnap : ∀ i p rest s, Inv s →
      ((step i p rest s).2.1).frames = fr (step i p rest s).1)
    (hP : ∀ s, Inv s → P (fr s)) :
    ∀ (l : List Int) (s : σ) (i : Nat), Inv s →
      ∀ r ∈ (runGo step l s i).steps, P r.frames := by
  intro l
  induction l with
  | nil => intro s i _ r hr; simp [runGo] at hr
  | cons p rest ih =>
    intro s i hs r hr
    simp only [runGo, List.mem_cons] at hr
    rcases hr with h | h
    · rw [h, hsnap i p rest s hs]
      exact hP _ (hstep i p rest s hs)
    · exact ih (step i p rest s).1 (i + 1) (hstep i p rest s hs) r h

/-! ## The offline minimum-faults benchmark -/

/-- The minimum number of faults any demand-paging schedule with capacity
`k` can incur on the remaining references, starting from the resident set
`C`: a hit changes nothing; a fault loads the page, evicting a resident
page of the schedule's choice when the cache is full.  All four simulators
are such schedules, and the OPTIMAL simulator attains this minimum. -/
def minFaults (k : Nat) : Finset Int → List Int → Nat
  | _, [] => 0
  | C, p :: σ =>
    if p ∈ C then minFaults k C σ
    else if C.card < k then 1 + minFaults k (insert p C) σ
    else if hC : C.Nonempty then
      1 + C.inf' hC fun v => minFaults k (insert p (C.erase v)) σ
    else 1 + minFaults k C σ
termination_by C σ => σ.length
decreasing_by all_goals simp

theorem minFaults_nil (k : Nat) (C : Finset Int) : minFaults k C [] = 0 := by
  rw [minFaults]

theorem minFaults_hit (k : Nat) (C : Finset Int) (p : Int) (σ : List Int)
    (h : p ∈ C) : minFaults k C (p :: σ) = minFaults k C σ := by
  rw [minFaults, if_pos h]

theorem minFaults_load (k : Nat) (C : Finset Int) (p : Int) (σ : List Int)
    (h : p ∉ C) (hc : C.card < k) :
    minFaults k C (p :: σ) = 1 + minFaults k (insert p C) σ := by
  rw [minFaults, if_neg h, if_pos hc]

theorem minFaults_full (k : Nat) (C : Finset Int) (p : Int) (σ : List Int)
    (h : p ∉ C) (hc : ¬ C.card < k) (hC : C.Nonempty) :
    minFaults k C (p :: σ) =
      1 + C.inf' hC fun v => minFaults k (insert p (C.erase v)) σ := by
  rw [minFaults, if_neg h, if_neg hc, dif_pos hC]

/-- Exchange bound: starting caches that differ in exactly one resident
page (`x` versus `y`) lead to fault counts differing by at most one, for
the optimal schedule on any remaining reference list. -/
theorem swap_le (k : Nat) :
    ∀ (σ : List Int) (D : Finset Int) (x y : Int), x ∉ D → y ∉ D →
      (insert x D).card = k →
      minFaults k (insert x D) σ ≤ minFaults k (insert y D) σ + 1 := by
  intro σ
  induction σ with
  | nil => intro D x y _ _ _; simp [minFaults_nil]
  | cons p σ ih =>
    intro D x y hxD hyD hcard
    by_cases hxy : x = y
    · subst hxy
      exact Nat.le_succ _
    have hcardY : (insert y D).card = k := by
      rw [Finset.card_insert_of_not_mem hyD, ← hcard,
        Finset.card_insert_of_not_mem hxD]
    have hnltX : ¬ (insert x D).card < k := by rw [hcard]; exact lt_irrefl k
    have hnltY : ¬ (insert y D).card < k := by rw [hcardY]; exact lt_irrefl k
    by_cases hpD : p ∈ D
    · rw [minFaults_hit k _ p σ (Finset.mem_insert_of_mem hpD),
        minFaults_hit k _ p σ (Finset.mem_insert_of_mem hpD)]
      exact ih D x y hxD hyD hcard
    by_cases hpx : p = x
    · -- X hits on p = x while Y must fault
      subst hpx
      have hpy : p ∉ insert y D := by
        rw [Finset.mem_insert]
        rintro (h | h)
        · exact hxy h
        · exact hpD h
      rw [minFaults_hit k _ p σ (Finset.mem_insert_self p D),
        minFaults_full k _ p σ hpy hnltY (Finset.insert_nonempty y D)]
      obtain ⟨v, hvmem, hvinf⟩ :=
        Finset.exists_mem_eq_inf' (Finset.insert_nonempty y D)
          fun v => minFaults k (insert p ((insert y D).erase v)) σ
      rw [hvinf]
      rcases Finset.mem_insert.1 hvmem with hv | hv
      · subst hv
        rw [Finset.erase_insert hyD]
        omega
      · have hyv : y ≠ v := fun h => hyD (h ▸ hv)
        have hvp : v ∉ insert p (D.erase v) := by
          rw [Finset.mem_insert]
          rintro (h | h)
          · exact hxD (h ▸ hv)
          · exact Finset.not_mem_erase v D h
        have hyp : y ∉ insert p (D.erase v) := by
          rw [Finset.mem_insert]
          rintro (h | h)
          · exact hxy h.symm
          · exact hyD (Finset.mem_of_mem_erase h)
        have hset : insert v (insert p (D.erase v)) = insert p D := by
          rw [Finset.Insert.comm, Finset.insert_erase hv]
        have hcard' : (insert v (insert p (D.erase v))).card = k := by
          rw [hset]; exact hcard
        have hIH := ih (insert p (D.erase v)) v y hvp hyp hcard'
        rw [hset, Finset.Insert.comm, ← Finset.erase_insert_of_ne hyv] at hIH
        omega
    by_cases hpy : p = y
    · -- Y hits on p = y while X must fault
      subst hpy
      have hpX : p ∉ insert x D := by
        rw [Finset.mem_insert]
        rintro (h | h)
        · exact hxy h.symm
        · exact hpD h
      rw [minFaults_full k _ p σ hpX hnltX (Finset.insert_nonempty x D),
        minFaults_hit k _ p σ (Finset.mem_insert_self p D)]
      have hle := Finset.inf'_le
        (f := fun w => minFaults k (insert p ((insert x D).erase w)) σ)
        (Finset.mem_insert_self x D)
      rw [Finset.erase_insert hxD] at hle
      omega
    · -- p is in neither cache: both fault with a full cache
      have hpX : p ∉ insert x D := by
        rw [Finset.mem_insert]
        rintro (h | h)
        · exact hpx h
        · exact hpD h
      have hpY : p ∉ insert y D := by
        rw [Finset.mem_insert]
        rintro (h | h)
        · exact hpy h
        · exact hpD h
      rw [minFaults_full k _ p σ hpX hnltX (Finset.insert_nonempty x D),
        minFaults_full k _ p σ hpY hnltY (Finset.insert_nonempty y D)]
      obtain ⟨v, hvmem, hvinf⟩ :=
        Finset.exists_mem_eq_inf' (Finset.insert_nonempty y D)
          fun v => minFaults k (insert p ((insert y D).erase v)) σ
      rw [hvinf]
      rcases Finset.mem_insert.1 hvmem with hv | hv
      · subst hv
        have hle := Finset.inf'_le
          (f := fun w => minFaults k (insert p ((insert x D).erase w)) σ)
          (Finset.mem_insert_self x D)
        rw [Finset.erase_insert hxD] at hle
        rw [Finset.erase_insert hyD]
        omega
      · have hxv : x ≠ v := fun h => hxD (h ▸ hv)
        have hyv : y ≠ v := fun h => hyD (h ▸ hv)
        have hle := Finset.inf'_le (s := insert x D)
          (f := fun w => minFaults k (insert p ((insert x D).erase w)) σ)
          (Finset.mem_insert_of_mem (b := x) hv)
        rw [Finset.erase_insert_of_ne hxv] at hle
        have hxp : x ∉ insert p (D.erase v) := by
          rw [Finset.mem_insert]
          rintro (h | h)
          · exact hpx h.symm
          · exact hxD (Finset.mem_of_mem_erase h)
        have hyp : y ∉ insert p (D.erase v) := by
          rw [Finset.mem_insert]
          rintro (h | h)
          · exact hpy h.symm
          · exact hyD (Finset.mem_of_mem_erase h)
        have hDpos : 0 < D.card := Finset.card_pos.2 ⟨v, hv⟩
        have hpDe : p ∉ D.erase v := fun h => hpD (Finset.mem_of_mem_erase h)
        have hcard' : (insert x (insert p (D.erase v))).card = k := by
          rw [Finset.card_insert_of_not_mem hxp,
            Finset.card_insert_of_not_mem hpDe,
            Finset.card_erase_of_mem hv]
          rw [Finset.card_insert_of_not_mem hxD] at hcard
          omega
        have hIH := ih (insert p (D.erase v)) x y hxp hyp hcard'
        rw [Finset.Insert.comm x, Finset.Insert.comm y] at hIH
        rw [← Finset.erase_insert_of_ne hyv] at hIH
        omega

/-- Belady exchange: when the kept page `x` is next used no later than the
alternative `y`, the cache keeping `x` incurs no more faults than the cache
keeping `y`. -/
theorem belady_swap (k : Nat) :
    ∀ (σ : List Int) (D : Finset Int) (x y : Int), x ∉ D → y ∉ D →
      (insert x D).card = k → nu x σ ≤ nu y σ →
      minFaults k (insert x D) σ ≤ minFaults k (insert y D) σ := by
  intro σ
  induction σ with
  | nil => intro D x y _ _ _ _; simp [minFaults_nil]
  | cons p σ ih =>
    intro D x y hxD hyD hcard hnu
    by_cases hxy : x = y
    · subst hxy
      exact le_refl _
    have hcardY : (insert y D).card = k := by
      rw [Finset.card_insert_of_not_mem hyD, ← hcard,
        Finset.card_insert_of_not_mem hxD]
    have hnltX : ¬ (insert x D).card < k := by rw [hcard]; exact lt_irrefl k
    have hnltY : ¬ (insert y D).card < k := by rw [hcardY]; exact lt_irrefl k
    by_cases hpD : p ∈ D
    · have hpx : p ≠ x := fun h => hxD (h ▸ hpD)
      have hpy : p ≠ y := fun h => hyD (h ▸ hpD)
      rw [minFaults_hit k _ p σ (Finset.mem_insert_of_mem hpD),
        minFaults_hit k _ p σ (Finset.mem_insert_of_mem hpD)]
      exact ih D x y hxD hyD hcard (nu_le_strip hpx hpy hnu)
    by_cases hpx : p = x
    · -- X hits on p = x while Y faults; the residual caches differ by one
      -- swap, so the unconditional exchange bound absorbs Y's extra fault
      subst hpx
      have hpy : p ∉ insert y D := by
        rw [Finset.mem_insert]
        rintro (h | h)
        · exact hxy h
        · exact hpD h
      rw [minFaults_hit k _ p σ (Finset.mem_insert_self p D),
        minFaults_full k _ p σ hpy hnltY (Finset.insert_nonempty y D)]
      obtain ⟨v, hvmem, hvinf⟩ :=
        Finset.exists_mem_eq_inf' (Finset.insert_nonempty y D)
          fun v => minFaults k (insert p ((insert y D).erase v)) σ
      rw [hvinf]
      rcases Finset.mem_insert.1 hvmem with hv | hv
      · subst hv
        rw [Finset.erase_insert hyD]
        omega
      · have hyv : y ≠ v := fun h => hyD (h ▸ hv)
        have hvp : v ∉ insert p (D.erase v) := by
          rw [Finset.mem_insert]
          rintro (h | h)
          · exact hxD (h ▸ hv)
          · exact Finset.not_mem_erase v D h
        have hyp : y ∉ insert p (D.erase v) := by
          rw [Finset.mem_insert]
          rintro (h | h)
          · exact hxy h.symm
          · exact hyD (Finset.mem_of_mem_erase h)
        have hset : insert v (insert p (D.erase v)) = insert p D := by
          rw [Finset.Insert.comm, Finset.insert_erase hv]
        have hcard' : (insert v (insert p (D.erase v))).card = k := by
          rw [hset]; exact hcard
        have hsw := swap_le k σ (insert p (D.erase v)) v y hvp hyp hcard'
        rw [hset, Finset.Insert.comm, ← Finset.erase_insert_of_ne hyv] at hsw
        omega
    by_cases hpy : p = y
    · -- impossible: x would have to be used now as well, i.e. x = y
      subst hpy
      exact absurd (nu_head_eq hnu).symm hpx
    · -- both fault with a full cache; X mirrors Y's eviction choice
      have hpX : p ∉ insert x D := by
        rw [Finset.mem_insert]
        rintro (h | h)
        · exact hpx h
        · exact hpD h
      have hpY : p ∉ insert y D := by
        rw [Finset.mem_insert]
        rintro (h | h)
        · exact hpy h
        · exact hpD h
      rw [minFaults_full k _ p σ hpX hnltX (Finset.insert_nonempty x D),
        minFaults_full k _ p σ hpY hnltY (Finset.insert_nonempty y D)]
      obtain ⟨v, hvmem, hvinf⟩ :=
        Finset.exists_mem_eq_inf' (Finset.insert_nonempty y D)
          fun v => minFaults k (insert p ((insert y D).erase v)) σ
      rw [hvinf]
      rcases Finset.mem_insert.1 hvmem with hv | hv
      · subst hv
        have hle := Finset.inf'_le
          (f := fun w => minFaults k (insert p ((insert x D).erase w)) σ)
          (Finset.mem_insert_self x D)
        rw [Finset.erase_insert hxD] at hle
        rw [Finset.erase_insert hyD]
        omega
      · have hxv : x ≠ v := fun h => hxD (h ▸ hv)
        have hyv : y ≠ v := fun h => hyD (h ▸ hv)
        have hle := Finset.inf'_le (s := insert x D)
          (f := fun w => minFaults k (insert p ((insert x D).erase w)) σ)
          (Finset.mem_insert_of_mem (b := x) hv)
        rw [Finset.erase_insert_of_ne hxv] at hle
        have hxp : x ∉ insert p (D.erase v) := by
          rw [Finset.mem_insert]
          rintro (h | h)
          · exact hpx h.symm
          · exact hxD (Finset.mem_of_mem_erase h)
        have hyp : y ∉ insert p (D.erase v) := by
          rw [Finset.mem_insert]
          rintro (h | h)
          · exact hpy h.symm
          · exact hyD (Finset.mem_of_mem_erase h)
        have hpDe : p ∉ D.erase v := fun h => hpD (Finset.mem_of_mem_erase h)
        have hDpos : 0 < D.card := Finset.card_pos.2 ⟨v, hv⟩
        have hcard' : (insert x (insert p (D.erase v))).card = k := by
          rw [Finset.card_insert_of_not_mem hxp,
            Finset.card_insert_of_not_mem hpDe,
            Finset.card_erase_of_mem hv]
          rw [Finset.card_insert_of_not_mem hxD] at hcard
          omega
        have hnu' : nu x σ ≤ nu y σ := nu_le_strip hpx hpy hnu
        have hIH := ih (insert p (D.erase v)) x y hxp hyp hcard' hnu'
        rw [Finset.Insert.comm x, Finset.Insert.comm y] at hIH
        rw [← Finset.erase_insert_of_ne hyv] at hIH
        omega

theorem finset_erase_comm (s : Finset Int) (a b : Int) :
    (s.erase a).erase b = (s.erase b).erase a := by
  ext x
  simp only [Finset.mem_erase]
  tauto

theorem nodup_append_singleton {l : List Int} {p : Int} (h : l.Nodup)
    (hp : p ∉ l) : (l ++ [p]).Nodup := by
  rw [List.nodup_append]
  refine ⟨h, List.nodup_singleton p, ?_⟩
  intro a ha hap
  rw [List.mem_singleton] at hap
  exact hp (hap ▸ ha)

theorem toFinset_append_singleton (l : List Int) (p : Int) :
    (l ++ [p]).toFinset = insert p l.toFinset := by
  rw [List.toFinset_append]
  rw [Finset.union_comm]
  rfl

theorem if_flag_true {α : Type} {a b : α} : (if true = true then a else b) = a := rfl

theorem if_flag_false {α : Type} {a b : α} : (if false = true then a else b) = b := rfl

/-- Evicting the page whose next use is farthest is at least as good as any
other eviction choice from a full cache. -/
theorem belady_choice_le (k : Nat) (σ : List Int) (C : Finset Int) (p v : Int)
    (hp : p ∉ C) (hv : v ∈ C) (hcard : C.card = k)
    (hmax : ∀ g ∈ C, nu g σ ≤ nu v σ) :
    ∀ w ∈ C, minFaults k (insert p (C.erase v)) σ ≤
      minFaults k (insert p (C.erase w)) σ := by
  intro w hw
  by_cases hwv : w = v
  · subst hwv
    exact le_refl _
  have hwev : w ∈ C.erase v := Finset.mem_erase.2 ⟨hwv, hw⟩
  have hvew : v ∈ C.erase w := Finset.mem_erase.2 ⟨fun h => hwv h.symm, hv⟩
  have hwp : w ≠ p := fun h => hp (h ▸ hw)
  have hvp : v ≠ p := fun h => hp (h ▸ hv)
  have hwE : w ∉ insert p ((C.erase v).erase w) := by
    rw [Finset.mem_insert]
    rintro (h | h)
    · exact hwp h
    · exact Finset.not_mem_erase w (C.erase v) h
  have hvE : v ∉ insert p ((C.erase v).erase w) := by
    rw [Finset.mem_insert]
    rintro (h | h)
    · exact hvp h
    · exact Finset.not_mem_erase v C (Finset.mem_of_mem_erase h)
  have hX : insert w (insert p ((C.erase v).erase w)) = insert p (C.erase v) := by
    rw [Finset.Insert.comm, Finset.insert_erase hwev]
  have hY : insert v (insert p ((C.erase v).erase w)) = insert p (C.erase w) := by
    rw [Finset.Insert.comm, finset_erase_comm, Finset.insert_erase hvew]
  have hpev : p ∉ C.erase v := fun h => hp (Finset.mem_of_mem_erase h)
  have hcard' : (insert w (insert p ((C.erase v).erase w))).card = k := by
    rw [hX, Finset.card_insert_of_not_mem hpev, Finset.card_erase_of_mem hv]
    have : 0 < C.card := Finset.card_pos.2 ⟨v, hv⟩
    omega
  have hle := belady_swap k σ (insert p ((C.erase v).erase w)) w v hwE hvE
    hcard' (hmax w hw)
  rw [hX, hY] at hle
  exact hle

/-- The OPTIMAL simulator never exceeds the offline minimum fault count. -/
theorem opt_le_minFaults (k : Nat) (hk : 0 < k) :
    ∀ (σ frames : List Int) (i : Nat), frames.Nodup → frames.length ≤ k →
      (runGo (optStep k) σ frames i).faults ≤
        minFaults k frames.toFinset σ := by
  intro σ
  induction σ with
  | nil => intro frames i _ _; simp [runGo, minFaults_nil]
  | cons p rest ih =>
    intro frames i hnd hlen
    by_cases hmem : p ∈ frames
    · have hstep : optStep k i p rest frames =
          (frames, ⟨p, frames, .HIT⟩, .hit p, true) := by
        rw [optStep]
        simp [hmem]
      simp only [runGo, hstep, if_flag_true, if_flag_false, if_true]
      rw [minFaults_hit k _ p rest (List.mem_toFinset.2 hmem)]
      have := ih frames (i + 1) hnd hlen
      omega
    by_cases hroom : frames.length < k
    · have hstep : optStep k i p rest frames =
          (frames ++ [p], ⟨p, frames ++ [p], .FAULT⟩, .load p, false) := by
        rw [optStep]
        simp [hmem, hroom]
      simp only [runGo, hstep, if_flag_true, if_flag_false, if_true]
      have hcardlt : frames.toFinset.card < k := by
        rw [List.toFinset_card_of_nodup hnd]
        exact hroom
      rw [minFaults_load k _ p rest (fun h => hmem (List.mem_toFinset.1 h)) hcardlt]
      have hrec := ih (frames ++ [p]) (i + 1)
        (nodup_append_singleton hnd hmem)
        (by rw [List.length_append, List.length_singleton]; omega)
      rw [toFinset_append_singleton] at hrec
      omega
    · have hne : frames ≠ [] := by
        intro h
        rw [h] at hroom
        exact hroom (by simpa using hk)
      obtain ⟨v, hveq, hvmem, hvmax⟩ := optVictim_spec rest frames hne
      have hstep : optStep k i p rest frames =
          (replaceFirst v p frames,
           ⟨p, replaceFirst v p frames, .FAULT⟩, .replace p v, false) := by
        rw [optStep]
        simp [hmem, hroom, hveq]
      simp only [runGo, hstep, if_flag_true, if_flag_false, if_true]
      have hcard : frames.toFinset.card = k := by
        rw [List.toFinset_card_of_nodup hnd]
        omega
      have hnlt : ¬ frames.toFinset.card < k := by omega
      have hCne : frames.toFinset.Nonempty :=
        ⟨v, List.mem_toFinset.2 hvmem⟩
      rw [minFaults_full k _ p rest (fun h => hmem (List.mem_toFinset.1 h))
        hnlt hCne]
      have hrec := ih (replaceFirst v p frames) (i + 1)
        (nodup_replaceFirst hnd hmem)
        (by rw [length_replaceFirst]; exact hlen)
      rw [toFinset_replaceFirst hnd hvmem hmem] at hrec
      have hinf : (runGo (optStep k) rest (replaceFirst v p frames) (i + 1)).faults ≤
          frames.toFinset.inf' hCne
            fun w => minFaults k (insert p (frames.toFinset.erase w)) rest := by
        apply Finset.le_inf'
        intro w hw
        refine le_trans hrec ?_
        exact belady_choice_le k rest frames.toFinset p v
          (fun h => hmem (List.mem_toFinset.1 h)) (List.mem_toFinset.2 hvmem)
          hcard (fun g hg => hvmax g (List.mem_toFinset.1 hg)) w hw
      omega

/-- Any simulator whose step behaves like a demand-paging schedule (hits on
resident pages, loads into free room, otherwise evicts one resident page)
incurs at least the offline minimum number of faults. -/
theorem minFaults_le_run {σ : Type} (k : Nat) (step : StepFn σ)
    (fr : σ → List Int) (Inv : σ → Prop)
    (hfr : ∀ s, Inv s → (fr s).Nodup ∧ (fr s).length ≤ k)
    (hstep : ∀ i p rest s, Inv s → Inv (step i p rest s).1)
    (hhit : ∀ i p rest s, Inv s → p ∈ fr s →
      (step i p rest s).2.2.2 = true ∧
      (fr (step i p rest s).1).toFinset = (fr s).toFinset)
    (hload : ∀ i p rest s, Inv s → p ∉ fr s → (fr s).length < k →
      (step i p rest s).2.2.2 = false ∧
      (fr (step i p rest s).1).toFinset = insert p (fr s).toFinset)
    (hfull : ∀ i p rest s, Inv s → p ∉ fr s → ¬ (fr s).length < k →
      (step i p rest s).2.2.2 = false ∧ ∃ v ∈ fr s,
        (fr (step i p rest s).1).toFinset = insert p ((fr s).toFinset.erase v)) :
    ∀ (l : List Int) (s : σ) (i : Nat), Inv s →
      minFaults k (fr s).toFinset l ≤ (runGo step l s i).faults := by
  intro l
  induction l with
  | nil => intro s i _; rw [minFaults_nil]; exact Nat.zero_le _
  | cons p rest ih =>
    intro s i hs
    obtain ⟨hnd, hlen⟩ := hfr s hs
    have hInv' := hstep i p rest s hs
    have hrec := ih (step i p rest s).1 (i + 1) hInv'
    by_cases hmem : p ∈ fr s
    · obtain ⟨hflag, hfin⟩ := hhit i p rest s hs hmem
      simp only [runGo, hflag, if_flag_true]
      rw [minFaults_hit k _ p rest (List.mem_toFinset.2 hmem)]
      rw [hfin] at hrec
      omega
    · by_cases hroom : (fr s).length < k
      · obtain ⟨hflag, hfin⟩ := hload i p rest s hs hmem hroom
        simp only [runGo, hflag, if_flag_false]
        rw [minFaults_load k _ p rest (fun h => hmem (List.mem_toFinset.1 h))
          (by rw [List.toFinset_card_of_nodup hnd]; exact hroom)]
        rw [hfin] at hrec
        omega
      · obtain ⟨hflag, v, hv, hfin⟩ := hfull i p rest s hs hmem hroom
        simp only [runGo, hflag, if_flag_false]
        have hCne : (fr s).toFinset.Nonempty := ⟨v, List.mem_toFinset.2 hv⟩
        rw [minFaults_full k _ p rest (fun h => hmem (List.mem_toFinset.1 h))
          (by rw [List.toFinset_card_of_nodup hnd]; exact hroom) hCne]
        have hinf := Finset.inf'_le (s := (fr s).toFinset)
          (f := fun w => minFaults k (insert p ((fr s).toFinset.erase w)) rest)
          (List.mem_toFinset.2 hv)
        rw [← hfin] at hinf
        omega

/-- Loop invariant of the FIFO simulator. -/
def FifoInv (k : Nat) (s : FifoSt) : Prop :=
  s.frames.Nodup ∧ s.frames.length ≤ k ∧ s.queueIndex < k

/-- The FIFO fault count is at least the offline minimum. -/
theorem minFaults_le_fifo (k : Nat) (hk : 0 < k) (pages : List Int) :
    minFaults k ∅ pages ≤ (fifo_page_replacement pages k).faults := by
  have h := minFaults_le_run k (fifoStep k) (fun s => s.frames) (FifoInv k)
    ?hfr ?hstep ?hhit ?hload ?hfull pages ⟨[], 0⟩ 0
    ⟨List.nodup_nil, by simp, hk⟩
  case hfr =>
    intro s hs
    exact ⟨hs.1, hs.2.1⟩
  case hstep =>
    intro i p rest s hs
    obtain ⟨hnd, hlen, hqi⟩ := hs
    by_cases hmem : p ∈ s.frames
    · simp only [fifoStep, if_pos hmem]
      exact ⟨hnd, hlen, hqi⟩
    · by_cases hroom : s.frames.length < k
      · simp only [fifoStep, if_neg hmem, if_pos hroom]
        refine ⟨nodup_append_singleton hnd hmem, ?_, hqi⟩
        rw [List.length_append, List.length_singleton]
        omega
      · simp only [fifoStep, if_neg hmem, if_neg hroom]
        refine ⟨hnd.set hmem, ?_, Nat.mod_lt _ hk⟩
        rw [List.length_set]
        exact hlen
  case hhit =>
    intro i p rest s hs hmem
    simp only [fifoStep, if_pos hmem]
    exact ⟨trivial, trivial⟩
  case hload =>
    intro i p rest s hs hmem hroom
    simp only [fifoStep, if_neg hmem, if_pos hroom]
    exact ⟨trivial, toFinset_append_singleton s.frames p⟩
  case hfull =>
    intro i p rest s hs hmem hroom
    obtain ⟨hnd, hlen, hqi⟩ := hs
    have hmem' : p ∉ s.frames := hmem
    have hroom' : ¬ s.frames.length < k := hroom
    have hqilen : s.queueIndex < s.frames.length := by omega
    simp only [fifoStep, if_neg hmem, if_neg hroom]
    refine ⟨trivial, s.frames.getD s.queueIndex 0, getD_mem_of_lt hqilen 0, ?_⟩
    exact toFinset_set hqilen hnd hmem'
  · simpa [fifo_page_replacement] using h

/-- Loop invariant of the LRU and LFU simulators (frames only). -/
def FramesInv (k : Nat) (frames : List Int) : Prop :=
  frames.Nodup ∧ frames.length ≤ k

/-- The LRU fault count is at least the offline minimum. -/
theorem minFaults_le_lru (k : Nat) (hk : 0 < k) (pages : List Int) :
    minFaults k ∅ pages ≤ (lru_page_replacement pages k).faults := by
  have h := minFaults_le_run k (lruStep k) (fun s => s.frames)
    (fun s => FramesInv k s.frames)
    ?hfr ?hstep ?hhit ?hload ?hfull pages ⟨[], []⟩ 0 ⟨List.nodup_nil, by simp⟩
  case hfr =>
    intro s hs
    exact hs
  case hstep =>
    intro i p rest s hs
    obtain ⟨hnd, hlen⟩ := hs
    by_cases hmem : p ∈ s.frames
    · simp only [lruStep, if_pos hmem]
      exact ⟨hnd, hlen⟩
    · by_cases hroom : s.frames.length < k
      · simp only [lruStep, if_neg hmem, if_pos hroom]
        refine ⟨nodup_append_singleton hnd hmem, ?_⟩
        rw [List.length_append, List.length_singleton]
        omega
      · simp only [lruStep, if_neg hmem, if_neg hroom]
        refine ⟨nodup_replaceFirst hnd hmem, ?_⟩
        rw [length_replaceFirst]
        exact hlen
  case hhit =>
    intro i p rest s hs hmem
    simp only [lruStep, if_pos hmem]
    exact ⟨trivial, trivial⟩
  case hload =>
    intro i p rest s hs hmem hroom
    simp only [lruStep, if_neg hmem, if_pos hroom]
    exact ⟨trivial, toFinset_append_singleton s.frames p⟩
  case hfull =>
    intro i p rest s hs hmem hroom
    obtain ⟨hnd, hlen⟩ := hs
    have hmem' : p ∉ s.frames := hmem
    have hroom' : ¬ s.frames.length < k := hroom
    have hne : s.frames ≠ [] := by
      intro h
      rw [h] at hroom'
      exact hroom' (by simpa using hk)
    obtain ⟨m, hmeq, hmmem, _⟩ :=
      pyMinBy_spec (fun q => (dlookup s.recent q).getD (-1)) s.frames hne
    simp only [lruStep, if_neg hmem, if_neg hroom, hmeq, Option.getD_some]
    exact ⟨trivial, m, hmmem, toFinset_replaceFirst hnd hmmem hmem'⟩
  · simpa [lru_page_replacement] using h

/-- The LFU fault count is at least the offline minimum. -/
theorem minFaults_le_lfu (k : Nat) (hk : 0 < k) (pages : List Int) :
    minFaults k ∅ pages ≤ (lfu_page_replacement pages k).faults := by
  have h := minFaults_le_run k (lfuStep k) (fun s => s.frames)
    (fun s => FramesInv k s.frames)
    ?hfr ?hstep ?hhit ?hload ?hfull pages ⟨[], [], []⟩ 0 ⟨List.nodup_nil, by simp⟩
  case hfr =>
    intro s hs
    exact hs
  case hstep =>
    intro i p rest s hs
    obtain ⟨hnd, hlen⟩ := hs
    by_cases hmem : p ∈ s.frames
    · simp only [lfuStep, if_pos hmem]
      exact ⟨hnd, hlen⟩
    · by_cases hroom : s.frames.length < k
      · simp only [lfuStep, if_neg hmem, if_pos hroom]
        refine ⟨nodup_append_singleton hnd hmem, ?_⟩
        rw [List.length_append, List.length_singleton]
        omega
      · simp only [lfuStep, if_neg hmem, if_neg hroom]
        refine ⟨nodup_replaceFirst hnd hmem, ?_⟩
        rw [length_replaceFirst]
        exact hlen
  case hhit =>
    intro i p rest s hs hmem
    simp only [lfuStep, if_pos hmem]
    exact ⟨trivial, trivial⟩
  case hload =>
    intro i p rest s hs hmem hroom
    simp only [lfuStep, if_neg hmem, if_pos hroom]
    exact ⟨trivial, toFinset_append_singleton s.frames p⟩
  case hfull =>
    intro i p rest s hs hmem hroom
    obtain ⟨hnd, hlen⟩ := hs
    have hmem' : p ∉ s.frames := hmem
    have hroom' : ¬ s.frames.length < k := hroom
    have hne : s.frames ≠ [] := by
      intro h
      rw [h] at hroom'
      exact hroom' (by simpa using hk)
    obtain ⟨m, hmeq, hmmem, _⟩ :=
      pyMinBy_spec (lfuKey s.freq s.time) s.frames hne
    simp only [lfuStep, if_neg hmem, if_neg hroom, hmeq, Option.getD_some]
    exact ⟨trivial, m, hmmem, toFinset_replaceFirst hnd hmmem hmem'⟩
  · simpa [lfu_page_replacement] using h

/-! ## Per-step facts shared by the step-record and invariant claims -/

theorem fifoStep_page (k i : Nat) (p : Int) (rest : List Int) (s : FifoSt) :
    ((fifoStep k i p rest s).2.1).page = p := by
  rw [fifoStep]
  by_cases hmem : p ∈ s.frames
  · simp [hmem]
  · by_cases hroom : s.frames.length < k <;> simp [hmem, hroom]

theorem lruStep_page (k i : Nat) (p : Int) (rest : List Int) (s : LruSt) :
    ((lruStep k i p rest s).2.1).page = p := by
  rw [lruStep]
  by_cases hmem : p ∈ s.frames
  · simp [hmem]
  · by_cases hroom : s.frames.length < k <;> simp [hmem, hroom]

theorem optStep_page (k i : Nat) (p : Int) (rest frames : List Int) :
    ((optStep k i p rest frames).2.1).page = p := by
  rw [optStep]
  by_cases hmem : p ∈ frames
  · simp [hmem]
  · by_cases hroom : frames.length < k <;> simp [hmem, hroom]

theorem lfuStep_page (k i : Nat) (p : Int) (rest : List Int) (s : LfuSt) :
    ((lfuStep k i p rest s).2.1).page = p := by
  rw [lfuStep]
  by_cases hmem : p ∈ s.frames
  · simp [hmem]
  · by_cases hroom : s.frames.length < k <;> simp [hmem, hroom]

theorem fifoStep_snap (k i : Nat) (p : Int) (rest : List Int) (s : FifoSt) :
    ((fifoStep k i p rest s).2.1).frames = (fifoStep k i p rest s).1.frames := by
  rw [fifoStep]
  by_cases hmem : p ∈ s.frames
  · simp [hmem]
  · by_cases hroom : s.frames.length < k <;> simp [hmem, hroom]

theorem lruStep_snap (k i : Nat) (p : Int) (rest : List Int) (s : LruSt) :
    ((lruStep k i p rest s).2.1).frames = (lruStep k i p rest s).1.frames := by
  rw [lruStep]
  by_cases hmem : p ∈ s.frames
  · simp [hmem]
  · by_cases hroom : s.frames.length < k <;> simp [hmem, hroom]

theorem optStep_snap (k i : Nat) (p : Int) (rest frames : List Int) :
    ((optStep k i p rest frames).2.1).frames = (optStep k i p rest frames).1 := by
  rw [optStep]
  by_cases hmem : p ∈ frames
  · simp [hmem]
  · by_cases hroom : frames.length < k <;> simp [hmem, hroom]

theorem lfuStep_snap (k i : Nat) (p : Int) (rest : List Int) (s : LfuSt) :
    ((lfuStep k i p rest s).2.1).frames = (lfuStep k i p rest s).1.frames := by
  rw [lfuStep]
  by_cases hmem : p ∈ s.frames
  · simp [hmem]
  · by_cases hroom : s.frames.length < k <;> simp [hmem, hroom]

theorem framesInv_append {k : Nat} {frames : List Int} {p : Int}
    (h : FramesInv k frames) (hp : p ∉ frames) (hroom : frames.length < k) :
    FramesInv k (frames ++ [p]) := by
  refine ⟨nodup_append_singleton h.1 hp, ?_⟩
  rw [List.length_append, List.length_singleton]
  omega

theorem framesInv_replaceFirst {k : Nat} {frames : List Int} {v p : Int}
    (h : FramesInv k frames) (hp : p ∉ frames) :
    FramesInv k (replaceFirst v p frames) := by
  refine ⟨nodup_replaceFirst h.1 hp, ?_⟩
  rw [length_replaceFirst]
  exact h.2

theorem optStep_framesInv (k : Nat) :
    ∀ (i : Nat) (p : Int) (rest frames : List Int), FramesInv k frames →
      FramesInv k (optStep k i p rest frames).1 := by
  intro i p rest frames hs
  by_cases hmem : p ∈ frames
  · simp only [optStep, if_pos hmem]
    exact hs
  · by_cases hroom : frames.length < k
    · simp only [optStep, if_neg hmem, if_pos hroom]
      exact framesInv_append hs hmem hroom
    · simp only [optStep, if_neg hmem, if_neg hroom]
      exact framesInv_replaceFirst hs hmem

theorem lruStep_framesInv (k : Nat) :
    ∀ (i : Nat) (p : Int) (rest : List Int) (s : LruSt),
      FramesInv k s.frames → FramesInv k (lruStep k i p rest s).1.frames := by
  intro i p rest s hs
  by_cases hmem : p ∈ s.frames
  · simp only [lruStep, if_pos hmem]
    exact hs
  · by_cases hroom : s.frames.length < k
    · simp only [lruStep, if_neg hmem, if_pos hroom]
      exact framesInv_append hs hmem hroom
    · simp only [lruStep, if_neg hmem, if_neg hroom]
      exact framesInv_replaceFirst hs hmem

theorem lfuStep_framesInv (k : Nat) :
    ∀ (i : Nat) (p : Int) (rest : List Int) (s : LfuSt),
      FramesInv k s.frames → FramesInv k (lfuStep k i p rest s).1.frames := by
  intro i p rest s hs
  by_cases hmem : p ∈ s.frames
  · simp only [lfuStep, if_pos hmem]
    exact hs
  · by_cases hroom : s.frames.length < k
    · simp only [lfuStep, if_neg hmem, if_pos hroom]
      exact framesInv_append hs hmem hroom
    · simp only [lfuStep, if_neg hmem, if_neg hroom]
      exact framesInv_replaceFirst hs hmem

theorem fifoStep_fifoInv (k : Nat) (hk : 0 < k) :
    ∀ (i : Nat) (p : Int) (rest : List Int) (s : FifoSt),
      FifoInv k s → FifoInv k (fifoStep k i p rest s).1 := by
  intro i p rest s hs
  obtain ⟨hnd, hlen, hqi⟩ := hs
  by_cases hmem : p ∈ s.frames
  · simp only [fifoStep, if_pos hmem]
    exact ⟨hnd, hlen, hqi⟩
  · by_cases hroom : s.frames.length < k
    · simp only [fifoStep, if_neg hmem, if_pos hroom]
      refine ⟨nodup_append_singleton hnd hmem, ?_, hqi⟩
      rw [List.length_append, List.length_singleton]
      omega
    · simp only [fifoStep, if_neg hmem, if_neg hroom]
      refine ⟨hnd.set hmem, ?_, Nat.mod_lt _ hk⟩
      rw [List.length_set]
      exact hlen

/-! ## Auxiliary-map invariants (LRU recency, LFU frequency and timestamp) -/

/-- Every resident LRU page has a recency entry. -/
def LruMapInv (s : LruSt) : Prop :=
  ∀ q ∈ s.frames, (dlookup s.recent q).isSome = true

/-- LFU: frames have no duplicates and every resident page has frequency
and timestamp entries. -/
def LfuMapInv (s : LfuSt) : Prop :=
  s.frames.Nodup ∧
  ∀ q ∈ s.frames, (dlookup s.freq q).isSome = true ∧
    (dlookup s.time q).isSome = true

theorem isSome_dset_of_isSome {d : Dict} {k v q : Int}
    (h : q ≠ k → (dlookup d q).isSome = true) :
    (dlookup (dset d k v) q).isSome = true := by
  by_cases hq : q = k
  · subst hq
    rw [dlookup_dset_self]
    rfl
  · rw [dlookup_dset_ne d k v q hq]
    exact h hq

theorem lruStep_mapInv (k : Nat) :
    ∀ (i : Nat) (p : Int) (rest : List Int) (s : LruSt),
      LruMapInv s → LruMapInv (lruStep k i p rest s).1 := by
  intro i p rest s hs
  by_cases hmem : p ∈ s.frames
  · simp only [lruStep, if_pos hmem]
    intro q hq
    exact isSome_dset_of_isSome fun _ => hs q hq
  · by_cases hroom : s.frames.length < k
    · simp only [lruStep, if_neg hmem, if_pos hroom]
      intro q hq
      rcases List.mem_append.1 hq with h | h
      · exact isSome_dset_of_isSome fun _ => hs q h
      · rw [List.mem_singleton] at h
        subst h
        rw [dlookup_dset_self]
        rfl
    · simp only [lruStep, if_neg hmem, if_neg hroom]
      intro q hq
      rcases mem_of_mem_replaceFirst hq with h | h
      · subst h
        rw [dlookup_dset_self]
        rfl
      · exact isSome_dset_of_isSome fun _ => hs q h

theorem lfuStep_mapInv (k : Nat) :
    ∀ (i : Nat) (p : Int) (rest : List Int) (s : LfuSt),
      LfuMapInv s → LfuMapInv (lfuStep k i p rest s).1 := by
  intro i p rest s hs
  obtain ⟨hnd, hmap⟩ := hs
  by_cases hmem : p ∈ s.frames
  · simp only [lfuStep, if_pos hmem]
    refine ⟨hnd, ?_⟩
    intro q hq
    exact ⟨isSome_dset_of_isSome fun _ => (hmap q hq).1,
      isSome_dset_of_isSome fun _ => (hmap q hq).2⟩
  · by_cases hroom : s.frames.length < k
    · simp only [lfuStep, if_neg hmem, if_pos hroom]
      refine ⟨nodup_append_singleton hnd hmem, ?_⟩
      intro q hq
      rcases List.mem_append.1 hq with h | h
      · exact ⟨isSome_dset_of_isSome fun _ => (hmap q h).1,
          isSome_dset_of_isSome fun _ => (hmap q h).2⟩
      · rw [List.mem_singleton] at h
        subst h
        rw [dlookup_dset_self, dlookup_dset_self]
        exact ⟨rfl, rfl⟩
    · simp only [lfuStep, if_neg hmem, if_neg hroom]
      refine ⟨nodup_replaceFirst hnd hmem, ?_⟩
      intro q hq
      rcases mem_replaceFirst_of_ne hnd hq with h | h
      · subst h
        rw [dlookup_dset_self, dlookup_dset_self]
        exact ⟨rfl, rfl⟩
      · obtain ⟨hqf, hqv⟩ := h
        have hqp : q ≠ p := fun hc => hmem (hc ▸ hqf)
        constructor
        · rw [dlookup_dset_ne _ _ _ _ hqp, dlookup_ddel_ne _ _ hqv]
          exact (hmap q hqf).1
        · rw [dlookup_dset_ne _ _ _ _ hqp, dlookup_ddel_ne _ _ hqv]
          exact (hmap q hqf).2

theorem pyMinBy_congr {β α : Type} [LinearOrder α] (k1 k2 : β → α) :
    ∀ l : List β, (∀ g ∈ l, k1 g = k2 g) → pyMinBy k1 l = pyMinBy k2 l := by
  intro l hl
  match l with
  | [] => rfl
  | x :: xs =>
    rw [pyMinBy, pyMinBy, pyMinFold_congr k1 k2 xs x
      (hl x (List.mem_cons_self x xs))
      (fun g hg => hl g (List.mem_cons_of_mem _ hg))]

/-! ## Claim theorems -/

/-- Claim C1: for every valid input (non-empty reference string, positive
frame count) the OPTIMAL simulator's fault count is at most the fault count
of each of the FIFO, LRU and LFU simulators on the same input. -/
theorem claim1_optimal_lower_bound (pages : List Int) (k : Nat) (hk : 0 < k)
    (hne : pages ≠ []) :
    (optimal_page_replacement pages k).faults ≤
        (fifo_page_replacement pages k).faults ∧
    (optimal_page_replacement pages k).faults ≤
        (lru_page_replacement pages k).faults ∧
    (optimal_page_replacement pages k).faults ≤
        (lfu_page_replacement pages k).faults := by
  have hopt : (optimal_page_replacement pages k).faults ≤ minFaults k ∅ pages := by
    have h := opt_le_minFaults k hk pages [] 0 List.nodup_nil (by simp)
    simpa [optimal_page_replacement] using h
  exact ⟨le_trans hopt (minFaults_le_fifo k hk pages),
    le_trans hopt (minFaults_le_lru k hk pages),
    le_trans hopt (minFaults_le_lfu k hk pages)⟩

/-- Witness for C1 on the textbook reference string with three frames. -/
theorem claim1_witness :
    (0 < 3 ∧ ([7, 0, 1, 2, 0, 3, 0, 4] : List Int) ≠ []) ∧
    ((optimal_page_replacement [7, 0, 1, 2, 0, 3, 0, 4] 3).faults ≤
        (fifo_page_replacement [7, 0, 1, 2, 0, 3, 0, 4] 3).faults ∧
      (optimal_page_replacement [7, 0, 1, 2, 0, 3, 0, 4] 3).faults ≤
        (lru_page_replacement [7, 0, 1, 2, 0, 3, 0, 4] 3).faults ∧
      (optimal_page_replacement [7, 0, 1, 2, 0, 3, 0, 4] 3).faults ≤
        (lfu_page_replacement [7, 0, 1, 2, 0, 3, 0, 4] 3).faults) :=
  ⟨⟨by decide, by decide⟩,
    claim1_optimal_lower_bound [7, 0, 1, 2, 0, 3, 0, 4] 3 (by decide) (by decide)⟩

/-- Claim C2 (counterexample): FIFO on [7,0,1,2,0,3,0,4] with three frames
does not produce 6 faults and 2 hits; page 0 is evicted at step 6, so its
third access faults. -/
theorem claim2_counterexample :
    ¬ ((fifo_page_replacement [7, 0, 1, 2, 0, 3, 0, 4] 3).faults = 6 ∧
       (fifo_page_replacement [7, 0, 1, 2, 0, 3, 0, 4] 3).hits = 2) := by
  decide

/-- Claim C2 (amended): the FIFO run on [7,0,1,2,0,3,0,4] with three frames
produces exactly 7 faults and 1 hit — the hit being the second access to
page 0 at step 5 — with exactly these per-step snapshots, log and final
cursor position. -/
theorem claim2_fifo_trace :
    fifo_page_replacement [7, 0, 1, 2, 0, 3, 0, 4] 3 =
      ⟨[⟨7, [7], .FAULT⟩, ⟨0, [7, 0], .FAULT⟩, ⟨1, [7, 0, 1], .FAULT⟩,
        ⟨2, [2, 0, 1], .FAULT⟩, ⟨0, [2, 0, 1], .HIT⟩, ⟨3, [2, 3, 1], .FAULT⟩,
        ⟨0, [2, 3, 0], .FAULT⟩, ⟨4, [4, 3, 0], .FAULT⟩],
       7, 1,
       [.load 7, .load 0, .load 1, .replace 2 7, .hit 0, .replace 3 0,
        .replace 0 1, .replace 4 2],
       ⟨[4, 3, 0], 1⟩⟩ := by
  decide

/-- Claim C3 (counterexample): an invalid frame count and an empty
reference string are rejected with the very same outcome — one generic
failure — so the two error kinds are not distinguishable to the caller. -/
theorem claim3_counterexample :
    parse_input 0 [1] = none ∧ parse_input 3 [] = none ∧
    parse_input 0 [1] = parse_input 3 [] := by
  decide

/-- Claim C3 (amended): a non-positive frame count or an empty reference
string is rejected by `parse_input` before any simulator runs, so all four
drivers return with zero step records; the rejection is a single generic
failure, not separate `InvalidFrameCount` / `EmptyReferenceString` kinds. -/
theorem claim3_invalid_rejected (fc : Int) (pages : List Int)
    (h : fc ≤ 0 ∨ pages = []) :
    parse_input fc pages = none ∧ run_fifo fc pages = none ∧
    run_lru fc pages = none ∧ run_optimal fc pages = none ∧
    run_lfu fc pages = none := by
  have hp : parse_input fc pages = none := by
    rcases h with h | h
    · rw [parse_input, if_pos h]
    · subst h
      rw [parse_input]
      by_cases h0 : fc ≤ 0
      · rw [if_pos h0]
      · rw [if_neg h0]
        rfl
  refine ⟨hp, ?_, ?_, ?_, ?_⟩ <;>
    simp [run_fifo, run_lru, run_optimal, run_lfu, hp]

/-- Witness for C3 at frame count 0 with the non-empty reference [1]. -/
theorem claim3_witness :
    ((0 : Int) ≤ 0 ∨ ([1] : List Int) = []) ∧
    (parse_input 0 [1] = none ∧ run_fifo 0 [1] = none ∧
      run_lru 0 [1] = none ∧ run_optimal 0 [1] = none ∧
      run_lfu 0 [1] = none) :=
  ⟨Or.inl (by decide), claim3_invalid_rejected 0 [1] (Or.inl (by decide))⟩

/-- Claim C4: on every OPTIMAL fault with a full frame set, the victim
named in the replacement log line is a resident page whose next use is at
least as late as every other resident page's (no future occurrence counts
as `⊤`), and it is the first such page in the frame set's order: every page
before it in the frames is used strictly earlier. -/
theorem claim4_optimal_victim (fc i : Nat) (p : Int) (future frames : List Int)
    (hne : frames ≠ []) (hmem : p ∉ frames) (hroom : ¬ frames.length < fc) :
    ∃ v l1 l2,
      optVictim future frames = some v ∧
      (optStep fc i p future frames).2.2.1 = .replace p v ∧
      frames = l1 ++ v :: l2 ∧
      (∀ g ∈ frames, nu g future ≤ nu v future) ∧
      ∀ g ∈ l1, nu g future < nu v future := by
  obtain ⟨v, l1, l2, heq, hsplit, hall, hfirst⟩ := optVictim_first future frames hne
  refine ⟨v, l1, l2, heq, ?_, hsplit, hall, hfirst⟩
  simp only [optStep, if_neg hmem, if_neg hroom, heq, Option.getD_some]

/-- Witness for C4: frames [1, 2] with future [2, 1] on faulting page 5. -/
theorem claim4_witness :
    (([1, 2] : List Int) ≠ [] ∧ (5 : Int) ∉ ([1, 2] : List Int) ∧
      ¬ ([1, 2] : List Int).length < 1) ∧
    (∃ v l1 l2,
      optVictim [2, 1] [1, 2] = some v ∧
      (optStep 1 0 5 [2, 1] [1, 2]).2.2.1 = .replace 5 v ∧
      ([1, 2] : List Int) = l1 ++ v :: l2 ∧
      (∀ g ∈ ([1, 2] : List Int), nu g [2, 1] ≤ nu v [2, 1]) ∧
      ∀ g ∈ l1, nu g [2, 1] < nu v [2, 1]) :=
  ⟨⟨by decide, by decide, by decide⟩,
    claim4_optimal_victim 1 0 5 [2, 1] [1, 2] (by decide) (by decide) (by decide)⟩

/-- Claim C5: on every LFU fault with a full frame set the victim named in
the replacement log line is resident and minimal under the composite key
(frequency, then timestamp) compared lexicographically; and in the run on
[1,2,2,3,1,4] with two frames the victims are exactly [1, 3, 1], so page 2
(frequency 2) is never evicted. -/
theorem claim5_lfu_victim (fc i : Nat) (rest frames : List Int)
    (freq time : Dict) (p : Int) (hne : frames ≠ []) (hmem : p ∉ frames)
    (hroom : ¬ frames.length < fc) :
    (∃ v, (lfuStep fc i p rest ⟨frames, freq, time⟩).2.2.1 = .replace p v ∧
      v ∈ frames ∧ ∀ g ∈ frames, lfuKey freq time v ≤ lfuKey freq time g) ∧
    logVictims (lfu_page_replacement [1, 2, 2, 3, 1, 4] 2).log = [1, 3, 1] ∧
    (2 : Int) ∉ logVictims (lfu_page_replacement [1, 2, 2, 3, 1, 4] 2).log := by
  refine ⟨?_, by decide, by decide⟩
  obtain ⟨m, hmeq, hmmem, hmin⟩ := pyMinBy_spec (lfuKey freq time) frames hne
  refine ⟨m, ?_, hmmem, hmin⟩
  simp only [lfuStep, if_neg hmem, if_neg hroom, hmeq, Option.getD_some]

/-- Witness for C5: a full two-frame set [1, 2] faulting on page 3. -/
theorem claim5_witness :
    (([1, 2] : List Int) ≠ [] ∧ (3 : Int) ∉ ([1, 2] : List Int) ∧
      ¬ ([1, 2] : List Int).length < 2) ∧
    ((∃ v, (lfuStep 2 0 3 [] ⟨[1, 2], [], []⟩).2.2.1 = .replace 3 v ∧
        v ∈ ([1, 2] : List Int) ∧
        ∀ g ∈ ([1, 2] : List Int), lfuKey [] [] v ≤ lfuKey [] [] g) ∧
      logVictims (lfu_page_replacement [1, 2, 2, 3, 1, 4] 2).log = [1, 3, 1] ∧
      (2 : Int) ∉ logVictims (lfu_page_replacement [1, 2, 2, 3, 1, 4] 2).log) :=
  ⟨⟨by decide, by decide, by decide⟩,
    claim5_lfu_victim 2 0 [] [1, 2] [] [] 3 (by decide) (by decide) (by decide)⟩

/-- Claim C6 (counterexample): in the LRU run on [1, 2] with one frame,
page 1 is evicted at step 2 yet its recency entry survives in the final
map — the evicted page's entry is not removed. -/
theorem claim6_counterexample :
    (lru_page_replacement [1, 2] 1).log = [.load 1, .replace 2 1] ∧
    dlookup (lru_page_replacement [1, 2] 1).final.recent 1 = some 0 := by
  decide

/-- Claim C6 (amended): after every LRU eviction the new page's recency is
set to the current access index, but the evicted page's entry is retained
unchanged in the recency map rather than removed. -/
theorem claim6_lru_recent_retained (fc i : Nat) (rest frames : List Int)
    (recent : Dict) (p : Int) (hne : frames ≠ []) (hmem : p ∉ frames)
    (hroom : ¬ frames.length < fc) :
    ∃ v, (lruStep fc i p rest ⟨frames, recent⟩).2.2.1 = .replace p v ∧
      v ∈ frames ∧
      (lruStep fc i p rest ⟨frames, recent⟩).1.recent = dset recent p i ∧
      dlookup (dset recent p i) p = some i ∧
      dlookup (dset recent p i) v = dlookup recent v := by
  obtain ⟨m, hmeq, hmmem, _⟩ :=
    pyMinBy_spec (fun q => (dlookup recent q).getD (-1)) frames hne
  have hmp : m ≠ p := fun h => hmem (h ▸ hmmem)
  refine ⟨m, ?_, hmmem, ?_, dlookup_dset_self recent p i,
    dlookup_dset_ne recent p i m hmp⟩
  · simp only [lruStep, if_neg hmem, if_neg hroom, hmeq, Option.getD_some]
  · simp only [lruStep, if_neg hmem, if_neg hroom]

/-- Witness for C6: a full one-frame set [1] with recency entry (1, 0),
faulting on page 2 at access index 1. -/
theorem claim6_witness :
    (([1] : List Int) ≠ [] ∧ (2 : Int) ∉ ([1] : List Int) ∧
      ¬ ([1] : List Int).length < 1) ∧
    (∃ v, (lruStep 1 1 2 [] ⟨[1], [(1, 0)]⟩).2.2.1 = .replace 2 v ∧
      v ∈ ([1] : List Int) ∧
      (lruStep 1 1 2 [] ⟨[1], [(1, 0)]⟩).1.recent = dset [(1, 0)] 2 1 ∧
      dlookup (dset [(1, 0)] 2 1) 2 = some 1 ∧
      dlookup (dset [(1, 0)] 2 1) v = dlookup [(1, 0)] v) :=
  ⟨⟨by decide, by decide, by decide⟩,
    claim6_lru_recent_retained 1 1 [] [1] [(1, 0)] 2 (by decide) (by decide)
      (by decide)⟩

/-- Claim C7 (counterexample): on [1,2,3,4,5] with three frames all four
algorithms fault five times, yet `compare_all` names FIFO alone as best —
the tie is silently broken, not reported. -/
theorem claim7_counterexample :
    compare_all_best [1, 2, 3, 4, 5] 3 = AlgName.FIFO ∧
    (fifo_page_replacement [1, 2, 3, 4, 5] 3).faults =
      (lru_page_replacement [1, 2, 3, 4, 5] 3).faults := by
  decide

/-- Claim C7 (amended): `compare_all` reports a single algorithm that does
achieve the minimum fault count (ties silently broken towards the order
FIFO, LRU, OPTIMAL, LFU), while app.py's two-way `run_both` reports "Both
Equal" exactly when the FIFO and LRU fault counts tie. -/
theorem claim7_comparison (pages : List Int) (fc : Nat) :
    (∀ a : AlgName,
      algFaults pages fc (compare_all_best pages fc) ≤ algFaults pages fc a) ∧
    (run_both_better pages fc = .BothEqual ↔
      (fifo_page_replacement pages fc).faults =
        (lru_page_replacement pages fc).faults) := by
  constructor
  · intro a
    obtain ⟨hmem, hle1, hall⟩ := pyMinFold_spec (fun x : AlgName × Nat => x.2)
      [(AlgName.LRU, (lru_page_replacement pages fc).faults),
       (AlgName.OPTIMAL, (optimal_page_replacement pages fc).faults),
       (AlgName.LFU, (lfu_page_replacement pages fc).faults)]
      (AlgName.FIFO, (fifo_page_replacement pages fc).faults)
    rw [compare_all_best]
    have hres : algFaults pages fc (pyMinFold (fun x : AlgName × Nat => x.2)
          (AlgName.FIFO, (fifo_page_replacement pages fc).faults)
          [(AlgName.LRU, (lru_page_replacement pages fc).faults),
           (AlgName.OPTIMAL, (optimal_page_replacement pages fc).faults),
           (AlgName.LFU, (lfu_page_replacement pages fc).faults)]).1 =
        (pyMinFold (fun x : AlgName × Nat => x.2)
          (AlgName.FIFO, (fifo_page_replacement pages fc).faults)
          [(AlgName.LRU, (lru_page_replacement pages fc).faults),
           (AlgName.OPTIMAL, (optimal_page_replacement pages fc).faults),
           (AlgName.LFU, (lfu_page_replacement pages fc).faults)]).2 := by
      rcases hmem with h | h
      · rw [h]
        rfl
      · simp only [List.mem_cons, List.not_mem_nil, or_false] at h
        rcases h with h | h | h
        · rw [h]
          rfl
        · rw [h]
          rfl
        · rw [h]
          rfl
    rw [hres]
    cases a
    · exact hle1
    · exact hall (AlgName.LRU, (lru_page_replacement pages fc).faults) (by simp)
    · exact hall (AlgName.OPTIMAL, (optimal_page_replacement pages fc).faults)
        (by simp)
    · exact hall (AlgName.LFU, (lfu_page_replacement pages fc).faults) (by simp)
  · rw [run_both_better]
    by_cases h1 : (fifo_page_replacement pages fc).faults <
        (lru_page_replacement pages fc).faults
    · rw [if_pos h1]
      constructor
      · intro hcon
        exact absurd hcon (by decide)
      · intro heq
        exact absurd heq (by omega)
    · rw [if_neg h1]
      by_cases h2 : (lru_page_replacement pages fc).faults <
          (fifo_page_replacement pages fc).faults
      · rw [if_pos h2]
        constructor
        · intro hcon
          exact absurd hcon (by decide)
        · intro heq
          exact absurd heq (by omega)
      · rw [if_neg h2]
        constructor
        · intro _
          omega
        · intro _
          rfl

/-- Claim C8: for every valid input and each simulator, hits plus faults
equals the length of the reference string, and the trace has exactly one
step record per access, carrying the accessed pages in input order. -/
theorem claim8_step_records (pages : List Int) (k : Nat) (hk : 0 < k)
    (hne : pages ≠ []) :
    ((fifo_page_replacement pages k).hits +
        (fifo_page_replacement pages k).faults = pages.length ∧
      (fifo_page_replacement pages k).steps.length = pages.length ∧
      (fifo_page_replacement pages k).steps.map StepRec.page = pages) ∧
    ((lru_page_replacement pages k).hits +
        (lru_page_replacement pages k).faults = pages.length ∧
      (lru_page_replacement pages k).steps.length = pages.length ∧
      (lru_page_replacement pages k).steps.map StepRec.page = pages) ∧
    ((optimal_page_replacement pages k).hits +
        (optimal_page_replacement pages k).faults = pages.length ∧
      (optimal_page_replacement pages k).steps.length = pages.length ∧
      (optimal_page_replacement pages k).steps.map StepRec.page = pages) ∧
    ((lfu_page_replacement pages k).hits +
        (lfu_page_replacement pages k).faults = pages.length ∧
      (lfu_page_replacement pages k).steps.length = pages.length ∧
      (lfu_page_replacement pages k).steps.map StepRec.page = pages) := by
  refine ⟨⟨?_, ?_, ?_⟩, ⟨?_, ?_, ?_⟩, ⟨?_, ?_, ?_⟩, ⟨?_, ?_, ?_⟩⟩
  · exact runGo_hits_faults (fifoStep k) pages ⟨[], 0⟩ 0
  · exact runGo_steps_length (fifoStep k) pages ⟨[], 0⟩ 0
  · exact runGo_steps_pages (fifoStep k) (fifoStep_page k) pages ⟨[], 0⟩ 0
  · exact runGo_hits_faults (lruStep k) pages ⟨[], []⟩ 0
  · exact runGo_steps_length (lruStep k) pages ⟨[], []⟩ 0
  · exact runGo_steps_pages (lruStep k) (lruStep_page k) pages ⟨[], []⟩ 0
  · exact runGo_hits_faults (optStep k) pages [] 0
  · exact runGo_steps_length (optStep k) pages [] 0
  · exact runGo_steps_pages (optStep k) (optStep_page k) pages [] 0
  · exact runGo_hits_faults (lfuStep k) pages ⟨[], [], []⟩ 0
  · exact runGo_steps_length (lfuStep k) pages ⟨[], [], []⟩ 0
  · exact runGo_steps_pages (lfuStep k) (lfuStep_page k) pages ⟨[], [], []⟩ 0

/-- Witness for C8 on [7, 0, 7] with two frames. -/
theorem claim8_witness :
    (0 < 2 ∧ ([7, 0, 7] : List Int) ≠ []) ∧
    (((fifo_page_replacement [7, 0, 7] 2).hits +
        (fifo_page_replacement [7, 0, 7] 2).faults = ([7, 0, 7] : List Int).length ∧
      (fifo_page_replacement [7, 0, 7] 2).steps.length = ([7, 0, 7] : List Int).length ∧
      (fifo_page_replacement [7, 0, 7] 2).steps.map StepRec.page = [7, 0, 7]) ∧
    ((lru_page_replacement [7, 0, 7] 2).hits +
        (lru_page_replacement [7, 0, 7] 2).faults = ([7, 0, 7] : List Int).length ∧
      (lru_page_replacement [7, 0, 7] 2).steps.length = ([7, 0, 7] : List Int).length ∧
      (lru_page_replacement [7, 0, 7] 2).steps.map StepRec.page = [7, 0, 7]) ∧
    ((optimal_page_replacement [7, 0, 7] 2).hits +
        (optimal_page_replacement [7, 0, 7] 2).faults = ([7, 0, 7] : List Int).length ∧
      (optimal_page_replacement [7, 0, 7] 2).steps.length = ([7, 0, 7] : List Int).length ∧
      (optimal_page_replacement [7, 0, 7] 2).steps.map StepRec.page = [7, 0, 7]) ∧
    ((lfu_page_replacement [7, 0, 7] 2).hits +
        (lfu_page_replacement [7, 0, 7] 2).faults = ([7, 0, 7] : List Int).length ∧
      (lfu_page_replacement [7, 0, 7] 2).steps.length = ([7, 0, 7] : List Int).length ∧
      (lfu_page_replacement [7, 0, 7] 2).steps.map StepRec.page = [7, 0, 7])) :=
  ⟨⟨by decide, by decide⟩, claim8_step_records [7, 0, 7] 2 (by decide) (by decide)⟩

/-- Claim C9: for every valid input and each simulator, the frame snapshot
in every step record has length at most the frame count and holds no
duplicate page identifiers. -/
theorem claim9_frame_invariant (pages : List Int) (k : Nat) (hk : 0 < k) :
    (∀ r ∈ (fifo_page_replacement pages k).steps,
      r.frames.length ≤ k ∧ r.frames.Nodup) ∧
    (∀ r ∈ (lru_page_replacement pages k).steps,
      r.frames.length ≤ k ∧ r.frames.Nodup) ∧
    (∀ r ∈ (optimal_page_replacement pages k).steps,
      r.frames.length ≤ k ∧ r.frames.Nodup) ∧
    (∀ r ∈ (lfu_page_replacement pages k).steps,
      r.frames.length ≤ k ∧ r.frames.Nodup) := by
  refine ⟨?_, ?_, ?_, ?_⟩
  · exact runGo_steps_inv (fifoStep k) (FifoInv k)
      (fun l => l.length ≤ k ∧ l.Nodup) (fun s => s.frames)
      (fifoStep_fifoInv k hk) (fun i p rest s _ => fifoStep_snap k i p rest s)
      (fun s hs => ⟨hs.2.1, hs.1⟩) pages ⟨[], 0⟩ 0 ⟨List.nodup_nil, by simp, hk⟩
  · exact runGo_steps_inv (lruStep k) (fun s => FramesInv k s.frames)
      (fun l => l.length ≤ k ∧ l.Nodup) (fun s => s.frames)
      (lruStep_framesInv k) (fun i p rest s _ => lruStep_snap k i p rest s)
      (fun s hs => ⟨hs.2, hs.1⟩) pages ⟨[], []⟩ 0 ⟨List.nodup_nil, by simp⟩
  · exact runGo_steps_inv (optStep k) (FramesInv k)
      (fun l => l.length ≤ k ∧ l.Nodup) (fun frames => frames)
      (optStep_framesInv k) (fun i p rest s _ => optStep_snap k i p rest s)
      (fun s hs => ⟨hs.2, hs.1⟩) pages [] 0 ⟨List.nodup_nil, by simp⟩
  · exact runGo_steps_inv (lfuStep k) (fun s => FramesInv k s.frames)
      (fun l => l.length ≤ k ∧ l.Nodup) (fun s => s.frames)
      (lfuStep_framesInv k) (fun i p rest s _ => lfuStep_snap k i p rest s)
      (fun s hs => ⟨hs.2, hs.1⟩) pages ⟨[], [], []⟩ 0 ⟨List.nodup_nil, by simp⟩

/-- Witness for C9: the first snapshot of the FIFO run on [7, 7] with one
frame. -/
theorem claim9_witness :
    (0 < 1 ∧ (⟨7, [7], Status.FAULT⟩ : StepRec) ∈
        (fifo_page_replacement [7, 7] 1).steps) ∧
    ((⟨7, [7], Status.FAULT⟩ : StepRec).frames.length ≤ 1 ∧
      (⟨7, [7], Status.FAULT⟩ : StepRec).frames.Nodup) :=
  ⟨⟨by decide, by decide⟩,
    (claim9_frame_invariant [7, 7] 1 (by decide)).1 ⟨7, [7], Status.FAULT⟩
      (by decide)⟩

/-- Claim C10: at every point of every LRU run each resident page has a
recency entry, and at every point of every LFU run each resident page has
frequency and timestamp entries (states after any number of steps are the
final states of the run on the corresponding prefix); consequently victim
selection never depends on LRU's `-1` fallback default. -/
theorem claim10_resident_entries (pages : List Int) (k n : Nat) :
    (∀ q ∈ (lru_page_replacement (pages.take n) k).final.frames,
      (dlookup (lru_page_replacement (pages.take n) k).final.recent q).isSome
        = true) ∧
    (∀ q ∈ (lfu_page_replacement (pages.take n) k).final.frames,
      (dlookup (lfu_page_replacement (pages.take n) k).final.freq q).isSome
          = true ∧
      (dlookup (lfu_page_replacement (pages.take n) k).final.time q).isSome
          = true) ∧
    (∀ d : Int,
      pyMinBy (fun q =>
          (dlookup (lru_page_replacement (pages.take n) k).final.recent q).getD d)
        (lru_page_replacement (pages.take n) k).final.frames =
      pyMinBy (fun q =>
          (dlookup (lru_page_replacement (pages.take n) k).final.recent q).getD (-1))
        (lru_page_replacement (pages.take n) k).final.frames) := by
  have hlru : LruMapInv (lru_page_replacement (pages.take n) k).final :=
    runGo_final_inv (lruStep k) LruMapInv (lruStep_mapInv k) (pages.take n)
      ⟨[], []⟩ 0 (fun q hq => absurd hq (List.not_mem_nil q))
  have hlfu : LfuMapInv (lfu_page_replacement (pages.take n) k).final :=
    runGo_final_inv (lfuStep k) LfuMapInv (lfuStep_mapInv k) (pages.take n)
      ⟨[], [], []⟩ 0
      ⟨List.nodup_nil, fun q hq => absurd hq (List.not_mem_nil q)⟩
  refine ⟨hlru, hlfu.2, ?_⟩
  intro d
  apply pyMinBy_congr
  intro g hg
  obtain ⟨x, hx⟩ := Option.isSome_iff_exists.1 (hlru g hg)
  rw [hx]
  rfl

/-- Witness for C10 after both accesses of [1, 2] with one frame. -/
theorem claim10_witness :
    ((2 : Int) ∈ (lru_page_replacement ([1, 2].take 2) 1).final.frames) ∧
    (dlookup (lru_page_replacement ([1, 2].take 2) 1).final.recent 2).isSome
      = true :=
  ⟨by decide, (claim10_resident_entries [1, 2] 1 2).1 2 (by decide)⟩

end Paging
